import Mathlib

/-!
Verification of the FPGA_Telemetry forward-error-correction reference model:
the (7,5)_oct, K = 3 convolutional encoder, the hard-decision Viterbi decoder
(scripts/generate_readme_artifacts.py), the reference encoders of the cocotb
tests (sim/test_convenc_smoke.py, sim/test_viterbi_sequence.py) and the
bit-flip BER sweep harness (sim/test_ber_sweep.py).
-/

/-! ## Basic bit utilities -/

/-- Fuel-driven population count helper (the fuel bounds the recursion depth). -/
def popcountAux : Nat → Nat → Nat
  | 0, _ => 0
  | fuel + 1, m => if m = 0 then 0 else popcountAux fuel (m / 2) + m % 2

/-- Number of set bits of a natural number; `bin(x).count("1")` in the source. -/
def popcount (n : Nat) : Nat := popcountAux n n

/-- A list of naturals is a bit sequence when every entry is 0 or 1. -/
def IsBits (l : List Nat) : Prop := ∀ b ∈ l, b ≤ 1

instance (l : List Nat) : Decidable (IsBits l) := by
  unfold IsBits; infer_instance

/-! ## Convolutional encoder `conv_encode_7_5`
(scripts/generate_readme_artifacts.py, lines 13-25) -/

/-- Loop body of `conv_encode_7_5`: 3-bit shift register `state`, generators
g1 = 0b111, g2 = 0b101, emitting `v1` then `v0` per input bit. -/
def conv_go : Nat → List Nat → List Nat
  | _, [] => []
  | state, b :: rest =>
    let st := ((state <<< 1) ||| (b &&& 1)) &&& 7
    (popcount (st &&& 7) &&& 1) :: (popcount (st &&& 5) &&& 1) :: conv_go st rest

/-- `conv_encode_7_5(bits)`: rate-1/2 convolutional encoder for (7,5)_oct, K=3. -/
def conv_encode_7_5 (bits : List Nat) : List Nat := conv_go 0 bits

/-- `add_tail(bits, K=3)`: append K-1 zero tail bits. -/
def add_tail (bits : List Nat) (K : Nat := 3) : List Nat :=
  bits ++ List.replicate (K - 1) 0

/-! ## Trellis tables (`_precompute`, lines 32-45): NUM_STATES = 4 -/

/-- `NEXT_STATE[s][u] = ((s << 1) | u) & 0b11`. -/
def NEXT_STATE (s u : Nat) : Nat := ((s <<< 1) ||| u) &&& 3

/-- `OUT_BITS[s][u] = (v1, v0)` with `new_shift = ((s << 1) | u) & 0b111`,
`v1 = parity(new_shift & 0b111)`, `v0 = parity(new_shift & 0b101)`. -/
def OUT_BITS (s u : Nat) : Nat × Nat :=
  let ns := ((s <<< 1) ||| u) &&& 7
  (popcount (ns &&& 7) &&& 1, popcount (ns &&& 5) &&& 1)

/-! ## Hard-decision Viterbi decoder `viterbi_decode_hard_7_5` (lines 47-72) -/

/-- `INF = 10**9`, the decoder's unreachable-state sentinel metric. -/
def INF : Nat := 10 ^ 9

/-- A row of one of the decoder tables, indexed by the 4 trellis states. -/
structure Row4 (α : Type) where
  e0 : α
  e1 : α
  e2 : α
  e3 : α
deriving DecidableEq

/-- Read entry `i` of a row (indices ≥ 3 alias entry 3; never used). -/
def Row4.get {α : Type} (r : Row4 α) (i : Nat) : α :=
  if i = 0 then r.e0 else if i = 1 then r.e1 else if i = 2 then r.e2 else r.e3

/-- Write entry `i` of a row. -/
def Row4.set {α : Type} (r : Row4 α) (i : Nat) (v : α) : Row4 α :=
  if i = 0 then ⟨v, r.e1, r.e2, r.e3⟩
  else if i = 1 then ⟨r.e0, v, r.e2, r.e3⟩
  else if i = 2 then ⟨r.e0, r.e1, v, r.e3⟩
  else ⟨r.e0, r.e1, r.e2, v⟩

/-- The decoder state built while processing one received pair: the row
`pm[t+1]` under construction together with its provenance rows
`prev[t+1]` and `prev_u[t+1]`. -/
structure StepAcc where
  pm : Row4 Nat
  pv : Row4 Int
  pu : Row4 Int
deriving DecidableEq

/-- Branch metric `bm = (v1 ^ r1) + (v0 ^ r0)` of edge `(s, u)` against the
received pair `(r1, r0)` (line 61). -/
def bmOf (s u r1 r0 : Nat) : Nat :=
  ((OUT_BITS s u).1 ^^^ r1) + ((OUT_BITS s u).2 ^^^ r0)

/-- Innermost update of the path-metric recursion (lines 58-66): candidate
`pm[t][s] + branch metric` replaces `pm[t+1][ns]` and its provenance only
when strictly smaller. -/
def vitUpd (pmt : Row4 Nat) (r1 r0 : Nat) (acc : StepAcc) (s u : Nat) : StepAcc :=
  let ns := NEXT_STATE s u
  let cand := pmt.get s + bmOf s u r1 r0
  if cand < acc.pm.get ns then
    ⟨acc.pm.set ns cand, acc.pv.set ns (s : Int), acc.pu.set ns (u : Int)⟩
  else acc

/-- Per-state body (lines 56-66): skip states with `pm[t][s] >= INF`,
otherwise try input bit 0 then input bit 1. -/
def vitState (pmt : Row4 Nat) (r1 r0 : Nat) (acc : StepAcc) (s : Nat) : StepAcc :=
  if INF ≤ pmt.get s then acc
  else vitUpd pmt r1 r0 (vitUpd pmt r1 r0 acc s 0) s 1

/-- Left fold of the per-state body over a list of state indices. -/
def vitFold (pmt : Row4 Nat) (r1 r0 : Nat) : StepAcc → List Nat → StepAcc
  | acc, [] => acc
  | acc, s :: rest => vitFold pmt r1 r0 (vitState pmt r1 r0 acc s) rest

/-- The all-`INF` metric row with provenance `-1` that starts each time step. -/
def accInit : StepAcc :=
  ⟨⟨INF, INF, INF, INF⟩, ⟨-1, -1, -1, -1⟩, ⟨-1, -1, -1, -1⟩⟩

/-- One time step of the forward recursion: states visited in ascending
index 0,1,2,3 starting from an all-`INF` row with provenance `-1`. -/
def vitStep (pmt : Row4 Nat) (r1 r0 : Nat) : StepAcc :=
  vitFold pmt r1 r0 accInit [0, 1, 2, 3]

/-- Group a flat received bit list into `T = len // 2` hard-decision pairs
`(rx[2t], rx[2t+1])`, dropping a trailing odd element. -/
def toPairs : List Nat → List (Nat × Nat)
  | r1 :: r0 :: rest => (r1, r0) :: toPairs rest
  | _ => []

/-- Forward pass over all received pairs. Returns the final path-metric row
`pm[T]` and the provenance rows `prev[1..T]`, `prev_u[1..T]` in time order. -/
def vitTables : Row4 Nat → List (Nat × Nat) → Row4 Nat × (List (Row4 Int) × List (Row4 Int))
  | row, [] => (row, ([], []))
  | row, p :: rest =>
    let acc := vitStep row p.1 p.2
    let t := vitTables acc.pm rest
    (t.1, (acc.pv :: t.2.1, acc.pu :: t.2.2))

/-- `np.argmin` over a metric row: index of the minimum, first index on ties. -/
def argmin4 (r : Row4 Nat) : Nat :=
  let b1 : Nat × Nat := if r.e1 < r.e0 then (1, r.e1) else (0, r.e0)
  let b2 : Nat × Nat := if r.e2 < b1.2 then (2, r.e2) else b1
  let b3 : Nat × Nat := if r.e3 < b2.2 then (3, r.e3) else b2
  b3.1

/-- Traceback loop (lines 69-71) on the time-reversed provenance rows:
emits `prev_u[t][s]` and steps to `prev[t][s]` when it is ≥ 0, else to
state 0. Produces the decoded bits in reverse time order. -/
def tracebackRev : List (Row4 Int) → List (Row4 Int) → Nat → List Int
  | pu :: pus, pv :: pvs, s =>
    pu.get s :: tracebackRev pus pvs (if 0 ≤ pv.get s then (pv.get s).toNat else 0)
  | _, _, _ => []

/-- The state in which the traceback walk ends after consuming the given
time-reversed `prev` rows. -/
def tbState : List (Row4 Int) → Nat → Nat
  | [], s => s
  | pv :: pvs, s => tbState pvs (if 0 ≤ pv.get s then (pv.get s).toNat else 0)

/-- Initial path-metric row: `pm[0][0] = 0`, all other states `INF`. -/
def pm0 : Row4 Nat := ⟨0, INF, INF, INF⟩

/-- `viterbi_decode_hard_7_5(rx_pairs)`: hard-decision Viterbi decoder for the
(7,5) code; forward path-metric recursion, `argmin` termination and traceback. -/
def viterbi_decode_hard_7_5 (rx : List Nat) : List Int :=
  let t := vitTables pm0 (toPairs rx)
  (tracebackRev t.2.2.reverse t.2.1.reverse (argmin4 t.1)).reverse

example : conv_encode_7_5 [1] = [1, 1] := by decide

example : conv_encode_7_5 (add_tail [1]) = [1, 1, 1, 0, 1, 1] := by decide

example :
    viterbi_decode_hard_7_5 (conv_encode_7_5 (add_tail [1, 1, 0, 1, 1])) =
      [1, 1, 0, 1, 1, 0, 0] := by decide

/-! ## Trellis-level view of the encoder -/

/-- The trellis-level encoder: output pairs along the edge path from state σ. -/
def encFrom : Nat → List Nat → List (Nat × Nat)
  | _, [] => []
  | σ, u :: rest => OUT_BITS σ u :: encFrom (NEXT_STATE σ u) rest

/-- Trellis state reached from σ after consuming an input bit list. -/
def endSt : Nat → List Nat → Nat
  | σ, [] => σ
  | σ, u :: rest => endSt (NEXT_STATE σ u) rest

/-- Flatten a list of symbol pairs to the flat coded bit list `[v1, v0, ...]`. -/
def flat : List (Nat × Nat) → List Nat
  | [] => []
  | (a, b) :: r => a :: b :: flat r

lemma NEXT_STATE_lt (s u : Nat) : NEXT_STATE s u < 4 := by
  have h : ((s <<< 1) ||| u) &&& 3 ≤ 3 := Nat.and_le_right
  simpa [NEXT_STATE] using Nat.lt_succ_of_le h

lemma endSt_lt {σ : Nat} (x : List Nat) (h : σ < 4) : endSt σ x < 4 := by
  induction x generalizing σ with
  | nil => simpa [endSt] using h
  | cons u rest ih => simpa [endSt] using ih (NEXT_STATE_lt σ u)

lemma endSt_append (σ : Nat) (x y : List Nat) :
    endSt σ (x ++ y) = endSt (endSt σ x) y := by
  induction x generalizing σ with
  | nil => simp [endSt]
  | cons u rest ih => simp [endSt, ih]

lemma encFrom_append (σ : Nat) (x y : List Nat) :
    encFrom σ (x ++ y) = encFrom σ x ++ encFrom (endSt σ x) y := by
  induction x generalizing σ with
  | nil => simp [encFrom, endSt]
  | cons u rest ih => simp [encFrom, endSt, ih]

lemma encFrom_length (σ : Nat) (x : List Nat) :
    (encFrom σ x).length = x.length := by
  induction x generalizing σ with
  | nil => simp [encFrom]
  | cons u rest ih => simp [encFrom, ih]

lemma flat_length (P : List (Nat × Nat)) : (flat P).length = 2 * P.length := by
  induction P with
  | nil => simp [flat]
  | cons p r ih => obtain ⟨a, b⟩ := p; simp [flat, ih]; omega

lemma toPairs_flat (P : List (Nat × Nat)) : toPairs (flat P) = P := by
  induction P with
  | nil => simp [flat, toPairs]
  | cons p r ih => obtain ⟨a, b⟩ := p; simp [flat, toPairs, ih]

/-- Correspondence of the encoder's 3-bit register with the 2-bit trellis
state: `conv_go st` emits exactly the trellis edge outputs from `st % 4`. -/
lemma conv_go_encFrom :
    ∀ (x : List Nat) (st : Nat), IsBits x → st < 8 →
      conv_go st x = flat (encFrom (st % 4) x) := by
  intro x
  induction x with
  | nil => intro st _ _; simp [conv_go, encFrom, flat]
  | cons b rest ih =>
    intro st hbits hst
    have hb : b ≤ 1 := hbits b (List.mem_cons_self b rest)
    have hrest : IsBits rest := fun c hc => hbits c (List.mem_cons_of_mem b hc)
    interval_cases st <;> interval_cases b <;>
      simp only [conv_go, encFrom, flat, List.cons.injEq] <;>
      exact ⟨by decide, by decide, ih _ hrest (by decide)⟩

/-- `conv_encode_7_5` is the flat form of the trellis-level encoder from state 0. -/
lemma conv_encode_eq_encFrom (x : List Nat) (hx : IsBits x) :
    conv_encode_7_5 x = flat (encFrom 0 x) := by
  simpa [conv_encode_7_5] using conv_go_encFrom x 0 hx (by norm_num)

/-! ## Structure of one forward time step -/

lemma Row4.get_set_eq {α : Type} (r : Row4 α) (i : Nat) (v : α) (hi : i < 4) :
    (r.set i v).get i = v := by
  unfold Row4.set Row4.get
  split_ifs <;> first | rfl | omega

lemma Row4.get_set_ne {α : Type} (r : Row4 α) (i k : Nat) (v : α)
    (hi : i < 4) (hk : k < 4) (hne : k ≠ i) :
    (r.set i v).get k = r.get k := by
  unfold Row4.set Row4.get
  split_ifs <;> first | rfl | omega

lemma vitUpd_pm_bound (pmt : Row4 Nat) (r1 r0 : Nat) (acc : StepAcc) (s w k L : Nat)
    (hk : k < 4)
    (hL : L ≤ acc.pm.get k)
    (hc : NEXT_STATE s w = k → L ≤ pmt.get s + bmOf s w r1 r0) :
    L ≤ (vitUpd pmt r1 r0 acc s w).pm.get k := by
  simp only [vitUpd]
  split_ifs with hlt
  · by_cases hks : k = NEXT_STATE s w
    · subst hks
      rw [Row4.get_set_eq _ _ _ hk]
      exact hc rfl
    · rw [Row4.get_set_ne _ _ _ _ (NEXT_STATE_lt s w) hk hks]
      exact hL
  · exact hL

lemma vitUpd_keep (pmt : Row4 Nat) (r1 r0 : Nat) (acc : StepAcc) (s w k : Nat)
    (V : Nat) (P U : Int) (hk : k < 4)
    (hpm : acc.pm.get k = V) (hpv : acc.pv.get k = P) (hpu : acc.pu.get k = U)
    (hc : NEXT_STATE s w = k → V ≤ pmt.get s + bmOf s w r1 r0) :
    (vitUpd pmt r1 r0 acc s w).pm.get k = V ∧
    (vitUpd pmt r1 r0 acc s w).pv.get k = P ∧
    (vitUpd pmt r1 r0 acc s w).pu.get k = U := by
  simp only [vitUpd]
  split_ifs with hlt
  · by_cases hks : k = NEXT_STATE s w
    · exact absurd hlt (by rw [← hks, hpm]; omega)
    · rw [Row4.get_set_ne _ _ _ _ (NEXT_STATE_lt s w) hk hks,
        Row4.get_set_ne _ _ _ _ (NEXT_STATE_lt s w) hk hks,
        Row4.get_set_ne _ _ _ _ (NEXT_STATE_lt s w) hk hks]
      exact ⟨hpm, hpv, hpu⟩
  · exact ⟨hpm, hpv, hpu⟩

lemma vitUpd_fire (pmt : Row4 Nat) (r1 r0 : Nat) (acc : StepAcc) (s w : Nat)
    (hlt : pmt.get s + bmOf s w r1 r0 < acc.pm.get (NEXT_STATE s w)) :
    (vitUpd pmt r1 r0 acc s w).pm.get (NEXT_STATE s w) = pmt.get s + bmOf s w r1 r0 ∧
    (vitUpd pmt r1 r0 acc s w).pv.get (NEXT_STATE s w) = (s : Int) ∧
    (vitUpd pmt r1 r0 acc s w).pu.get (NEXT_STATE s w) = (w : Int) := by
  simp only [vitUpd]
  rw [if_pos hlt]
  refine ⟨?_, ?_, ?_⟩ <;>
    exact Row4.get_set_eq _ _ _ (NEXT_STATE_lt s w)

lemma vitState_pm_bound (pmt : Row4 Nat) (r1 r0 : Nat) (acc : StepAcc) (s k L : Nat)
    (hk : k < 4)
    (hL : L ≤ acc.pm.get k)
    (hc : ∀ w, w ≤ 1 → NEXT_STATE s w = k → L ≤ pmt.get s + bmOf s w r1 r0) :
    L ≤ (vitState pmt r1 r0 acc s).pm.get k := by
  unfold vitState
  split_ifs with hskip
  · exact hL
  · exact vitUpd_pm_bound pmt r1 r0 _ s 1 k L hk
      (vitUpd_pm_bound pmt r1 r0 acc s 0 k L hk hL (hc 0 (by omega)))
      (hc 1 (by omega))

lemma vitState_keep (pmt : Row4 Nat) (r1 r0 : Nat) (acc : StepAcc) (s k : Nat)
    (V : Nat) (P U : Int) (hk : k < 4)
    (hpm : acc.pm.get k = V) (hpv : acc.pv.get k = P) (hpu : acc.pu.get k = U)
    (hc : ∀ w, w ≤ 1 → NEXT_STATE s w = k → V ≤ pmt.get s + bmOf s w r1 r0) :
    (vitState pmt r1 r0 acc s).pm.get k = V ∧
    (vitState pmt r1 r0 acc s).pv.get k = P ∧
    (vitState pmt r1 r0 acc s).pu.get k = U := by
  unfold vitState
  split_ifs with hskip
  · exact ⟨hpm, hpv, hpu⟩
  · obtain ⟨h1, h2, h3⟩ :=
      vitUpd_keep pmt r1 r0 acc s 0 k V P U hk hpm hpv hpu (hc 0 (by omega))
    exact vitUpd_keep pmt r1 r0 _ s 1 k V P U hk h1 h2 h3 (hc 1 (by omega))

lemma vitState_fire (pmt : Row4 Nat) (r1 r0 : Nat) (acc : StepAcc) (σ u : Nat)
    (hu : u ≤ 1)
    (hskip : pmt.get σ < INF)
    (hlt : pmt.get σ + bmOf σ u r1 r0 < acc.pm.get (NEXT_STATE σ u))
    (hsib : NEXT_STATE σ (1 - u) ≠ NEXT_STATE σ u) :
    (vitState pmt r1 r0 acc σ).pm.get (NEXT_STATE σ u) = pmt.get σ + bmOf σ u r1 r0 ∧
    (vitState pmt r1 r0 acc σ).pv.get (NEXT_STATE σ u) = (σ : Int) ∧
    (vitState pmt r1 r0 acc σ).pu.get (NEXT_STATE σ u) = (u : Int) := by
  unfold vitState
  rw [if_neg (by omega)]
  interval_cases u
  · obtain ⟨h1, h2, h3⟩ := vitUpd_fire pmt r1 r0 acc σ 0 hlt
    exact vitUpd_keep pmt r1 r0 _ σ 1 _ _ _ _ (NEXT_STATE_lt σ 0) h1 h2 h3
      (fun h => absurd h (by simpa using hsib))
  · have hne : NEXT_STATE σ 0 ≠ NEXT_STATE σ 1 := by simpa using hsib
    have hpm0 : (vitUpd pmt r1 r0 acc σ 0).pm.get (NEXT_STATE σ 1) =
        acc.pm.get (NEXT_STATE σ 1) := by
      simp only [vitUpd]
      split_ifs with h
      · exact Row4.get_set_ne _ _ _ _ (NEXT_STATE_lt σ 0) (NEXT_STATE_lt σ 1)
          (Ne.symm hne)
      · rfl
    exact vitUpd_fire pmt r1 r0 _ σ 1 (by rw [hpm0]; exact hlt)

lemma vitFold_pm_bound (pmt : Row4 Nat) (r1 r0 : Nat) (stages : List Nat)
    (acc : StepAcc) (k L : Nat) (hk : k < 4)
    (hL : L ≤ acc.pm.get k)
    (hc : ∀ i ∈ stages, ∀ w, w ≤ 1 → NEXT_STATE i w = k →
      L ≤ pmt.get i + bmOf i w r1 r0) :
    L ≤ (vitFold pmt r1 r0 acc stages).pm.get k := by
  induction stages generalizing acc with
  | nil => exact hL
  | cons s rest ih =>
    exact ih _
      (vitState_pm_bound pmt r1 r0 acc s k L hk hL
        (hc s (List.mem_cons_self s rest)))
      (fun i hi => hc i (List.mem_cons_of_mem s hi))

lemma vitFold_keep (pmt : Row4 Nat) (r1 r0 : Nat) (stages : List Nat)
    (acc : StepAcc) (k : Nat) (V : Nat) (P U : Int) (hk : k < 4)
    (hpm : acc.pm.get k = V) (hpv : acc.pv.get k = P) (hpu : acc.pu.get k = U)
    (hc : ∀ i ∈ stages, ∀ w, w ≤ 1 → NEXT_STATE i w = k →
      V ≤ pmt.get i + bmOf i w r1 r0) :
    (vitFold pmt r1 r0 acc stages).pm.get k = V ∧
    (vitFold pmt r1 r0 acc stages).pv.get k = P ∧
    (vitFold pmt r1 r0 acc stages).pu.get k = U := by
  induction stages generalizing acc with
  | nil => exact ⟨hpm, hpv, hpu⟩
  | cons s rest ih =>
    obtain ⟨h1, h2, h3⟩ :=
      vitState_keep pmt r1 r0 acc s k V P U hk hpm hpv hpu
        (hc s (List.mem_cons_self s rest))
    exact ih _ h1 h2 h3 (fun i hi => hc i (List.mem_cons_of_mem s hi))

lemma vitFold_append (pmt : Row4 Nat) (r1 r0 : Nat) (acc : StepAcc) (l1 l2 : List Nat) :
    vitFold pmt r1 r0 acc (l1 ++ l2) = vitFold pmt r1 r0 (vitFold pmt r1 r0 acc l1) l2 := by
  induction l1 generalizing acc with
  | nil => rfl
  | cons s rest ih => simp [vitFold, ih]

/-- The two trellis edges into `NEXT_STATE σ u` come from `σ` and `(σ+2) % 4`,
both with input bit `u`. -/
lemma NEXT_STATE_pred (σ u i w : Nat) (hσ : σ < 4) (hu : u ≤ 1) (hi : i < 4)
    (hw : w ≤ 1) (hN : NEXT_STATE i w = NEXT_STATE σ u) :
    w = u ∧ (i = σ ∨ i = (σ + 2) % 4) := by
  interval_cases σ <;> interval_cases u <;> interval_cases i <;> interval_cases w <;>
    revert hN <;> decide

/-- The two edges out of a state target distinct states. -/
lemma NEXT_STATE_sib (σ u : Nat) (hσ : σ < 4) (hu : u ≤ 1) :
    NEXT_STATE σ (1 - u) ≠ NEXT_STATE σ u := by
  interval_cases σ <;> interval_cases u <;> decide

lemma accInit_pm (k : Nat) : accInit.pm.get k = INF := by
  unfold accInit Row4.get
  split_ifs <;> rfl

lemma mem0123 {i : Nat} (h : i ∈ ([0, 1, 2, 3] : List Nat)) : i < 4 := by
  simp at h
  omega

/-- Effect of one full forward time step on the entry of the next state of a
distinguished edge `(σ, u)` whose branch metric is β while every other
alternative costs at least `2 - β` to reach the same state: the edge wins,
its metric and provenance are recorded, and every other entry of the new row
is at least `min (a + 2 - β) b`. -/
lemma vitStep_core_aux (pmt : Row4 Nat) (r1 r0 σ u a b β : Nat)
    (l1 l2 : List Nat) (hdec : ([0, 1, 2, 3] : List Nat) = l1 ++ σ :: l2)
    (hσ : σ < 4) (hu : u ≤ 1) (hβ : β ≤ 1)
    (ha : pmt.get σ = a)
    (hb : ∀ s, s < 4 → s ≠ σ → b ≤ pmt.get s)
    (hbmt : bmOf σ u r1 r0 = β)
    (hbms : bmOf σ (1 - u) r1 r0 = 2 - β)
    (hbmp : bmOf ((σ + 2) % 4) u r1 r0 = 2 - β)
    (hab : a + 2 * β ≤ b + 1)
    (haI : a + 2 ≤ INF) :
    (vitStep pmt r1 r0).pm.get (NEXT_STATE σ u) = a + β ∧
    (vitStep pmt r1 r0).pv.get (NEXT_STATE σ u) = (σ : Int) ∧
    (vitStep pmt r1 r0).pu.get (NEXT_STATE σ u) = (u : Int) ∧
    ∀ k, k < 4 → k ≠ NEXT_STATE σ u →
      min (a + 2 - β) b ≤ (vitStep pmt r1 r0).pm.get k := by
  have hnd : (l1 ++ σ :: l2).Nodup := by
    rw [← hdec]; decide
  obtain ⟨-, hnd2, hdisj⟩ := List.nodup_append.mp hnd
  have hσl1 : σ ∉ l1 := fun hmem => hdisj hmem (List.mem_cons_self σ l2)
  have hσl2 : σ ∉ l2 := (List.nodup_cons.mp hnd2).1
  have hmeml1 : ∀ i ∈ l1, i < 4 := fun i hi =>
    mem0123 (hdec ▸ List.mem_append_left _ hi)
  have hmeml2 : ∀ i ∈ l2, i < 4 := fun i hi =>
    mem0123 (hdec ▸ List.mem_append_right _ (List.mem_cons_of_mem σ hi))
  have hp4 : (σ + 2) % 4 < 4 := by omega
  have hpne : (σ + 2) % 4 ≠ σ := by omega
  have hbp : b ≤ pmt.get ((σ + 2) % 4) := hb _ hp4 hpne
  have hτ4 : NEXT_STATE σ u < 4 := NEXT_STATE_lt σ u
  have hstep : vitStep pmt r1 r0 =
      vitFold pmt r1 r0
        (vitState pmt r1 r0 (vitFold pmt r1 r0 accInit l1) σ) l2 := by
    rw [vitStep, hdec, vitFold_append]
    rfl
  -- candidates into the target before and after the distinguished stage
  have hcand_pre : ∀ i ∈ l1, ∀ w, w ≤ 1 → NEXT_STATE i w = NEXT_STATE σ u →
      a + β + 1 ≤ pmt.get i + bmOf i w r1 r0 := by
    intro i hi w hw hN
    obtain ⟨hwu, hio⟩ := NEXT_STATE_pred σ u i w hσ hu (hmeml1 i hi) hw hN
    subst hwu
    rcases hio with hio | hio
    · exact absurd (hio ▸ hi) hσl1
    · subst hio
      omega
  have hcand_post : ∀ i ∈ l2, ∀ w, w ≤ 1 → NEXT_STATE i w = NEXT_STATE σ u →
      a + β ≤ pmt.get i + bmOf i w r1 r0 := by
    intro i hi w hw hN
    obtain ⟨hwu, hio⟩ := NEXT_STATE_pred σ u i w hσ hu (hmeml2 i hi) hw hN
    subst hwu
    rcases hio with hio | hio
    · exact absurd (hio ▸ hi) hσl2
    · subst hio
      omega
  have hpre : a + β + 1 ≤ (vitFold pmt r1 r0 accInit l1).pm.get (NEXT_STATE σ u) :=
    vitFold_pm_bound pmt r1 r0 l1 accInit _ _ hτ4
      (by rw [accInit_pm]; omega) hcand_pre
  have hfire := vitState_fire pmt r1 r0 (vitFold pmt r1 r0 accInit l1) σ u hu
    (by omega) (by omega) (NEXT_STATE_sib σ u hσ hu)
  rw [ha, hbmt] at hfire
  obtain ⟨hf1, hf2, hf3⟩ := hfire
  have hkeep := vitFold_keep pmt r1 r0 l2 _ _ (a + β) (σ : Int) (u : Int) hτ4
    hf1 hf2 hf3 hcand_post
  rw [hstep]
  refine ⟨hkeep.1, hkeep.2.1, hkeep.2.2, ?_⟩
  intro k hk hkne
  rw [← hstep]
  rw [vitStep]
  refine vitFold_pm_bound pmt r1 r0 _ accInit k _ hk
    (by rw [accInit_pm]; omega) ?_
  intro i hi w hw hN
  by_cases hiσ : i = σ
  · subst hiσ
    have hwu : w = 1 - u := by
      by_contra hne
      have : w = u := by omega
      exact hkne (this ▸ hN).symm
    subst hwu
    rw [ha, hbms]
    omega
  · have := hb i (mem0123 hi) hiσ
    omega

/-- `vitStep_core_aux` with the stage-list decomposition resolved per σ. -/
lemma vitStep_core (pmt : Row4 Nat) (r1 r0 σ u a b β : Nat)
    (hσ : σ < 4) (hu : u ≤ 1) (hβ : β ≤ 1)
    (ha : pmt.get σ = a)
    (hb : ∀ s, s < 4 → s ≠ σ → b ≤ pmt.get s)
    (hbmt : bmOf σ u r1 r0 = β)
    (hbms : bmOf σ (1 - u) r1 r0 = 2 - β)
    (hbmp : bmOf ((σ + 2) % 4) u r1 r0 = 2 - β)
    (hab : a + 2 * β ≤ b + 1)
    (haI : a + 2 ≤ INF) :
    (vitStep pmt r1 r0).pm.get (NEXT_STATE σ u) = a + β ∧
    (vitStep pmt r1 r0).pv.get (NEXT_STATE σ u) = (σ : Int) ∧
    (vitStep pmt r1 r0).pu.get (NEXT_STATE σ u) = (u : Int) ∧
    ∀ k, k < 4 → k ≠ NEXT_STATE σ u →
      min (a + 2 - β) b ≤ (vitStep pmt r1 r0).pm.get k := by
  interval_cases σ
  · exact vitStep_core_aux pmt r1 r0 0 u a b β [] [1, 2, 3] rfl (by omega)
      hu hβ ha hb hbmt hbms hbmp hab haI
  · exact vitStep_core_aux pmt r1 r0 1 u a b β [0] [2, 3] rfl (by omega)
      hu hβ ha hb hbmt hbms hbmp hab haI
  · exact vitStep_core_aux pmt r1 r0 2 u a b β [0, 1] [3] rfl (by omega)
      hu hβ ha hb hbmt hbms hbmp hab haI
  · exact vitStep_core_aux pmt r1 r0 3 u a b β [0, 1, 2] [] rfl (by omega)
      hu hβ ha hb hbmt hbms hbmp hab haI

/-- Flip component `j` (0 = v1, 1 = v0) of a coded symbol pair. -/
def flipPair : Nat → Nat × Nat → Nat × Nat
  | 0, p => (p.1 ^^^ 1, p.2)
  | _ + 1, p => (p.1, p.2 ^^^ 1)

lemma bm_self (σ u : Nat) :
    bmOf σ u (OUT_BITS σ u).1 (OUT_BITS σ u).2 = 0 := by
  simp [bmOf]

lemma bm_sib (σ u : Nat) (hσ : σ < 4) (hu : u ≤ 1) :
    bmOf σ (1 - u) (OUT_BITS σ u).1 (OUT_BITS σ u).2 = 2 := by
  interval_cases σ <;> interval_cases u <;> decide

lemma bm_pred (σ u : Nat) (hσ : σ < 4) (hu : u ≤ 1) :
    bmOf ((σ + 2) % 4) u (OUT_BITS σ u).1 (OUT_BITS σ u).2 = 2 := by
  interval_cases σ <;> interval_cases u <;> decide

lemma bm_self_flip (σ u j : Nat) (hσ : σ < 4) (hu : u ≤ 1) (hj : j ≤ 1) :
    bmOf σ u (flipPair j (OUT_BITS σ u)).1 (flipPair j (OUT_BITS σ u)).2 = 1 := by
  interval_cases σ <;> interval_cases u <;> interval_cases j <;> decide

lemma bm_sib_flip (σ u j : Nat) (hσ : σ < 4) (hu : u ≤ 1) (hj : j ≤ 1) :
    bmOf σ (1 - u) (flipPair j (OUT_BITS σ u)).1 (flipPair j (OUT_BITS σ u)).2 = 1 := by
  interval_cases σ <;> interval_cases u <;> interval_cases j <;> decide

lemma bm_pred_flip (σ u j : Nat) (hσ : σ < 4) (hu : u ≤ 1) (hj : j ≤ 1) :
    bmOf ((σ + 2) % 4) u (flipPair j (OUT_BITS σ u)).1 (flipPair j (OUT_BITS σ u)).2 = 1 := by
  interval_cases σ <;> interval_cases u <;> interval_cases j <;> decide

/-- One noiseless step: the received pair equals the output of edge `(σ, u)`;
the edge wins with unchanged metric and true provenance, and every other
state's new metric is at least `min (a + 2) b`. -/
lemma vitStep_noiseless (pmt : Row4 Nat) (σ u a b : Nat) (hσ : σ < 4) (hu : u ≤ 1)
    (ha : pmt.get σ = a) (hb : ∀ s, s < 4 → s ≠ σ → b ≤ pmt.get s)
    (hab : a ≤ b + 1) (haI : a + 2 ≤ INF) :
    (vitStep pmt (OUT_BITS σ u).1 (OUT_BITS σ u).2).pm.get (NEXT_STATE σ u) = a ∧
    (vitStep pmt (OUT_BITS σ u).1 (OUT_BITS σ u).2).pv.get (NEXT_STATE σ u) = (σ : Int) ∧
    (vitStep pmt (OUT_BITS σ u).1 (OUT_BITS σ u).2).pu.get (NEXT_STATE σ u) = (u : Int) ∧
    ∀ k, k < 4 → k ≠ NEXT_STATE σ u →
      min (a + 2) b ≤ (vitStep pmt (OUT_BITS σ u).1 (OUT_BITS σ u).2).pm.get k := by
  have h := vitStep_core pmt (OUT_BITS σ u).1 (OUT_BITS σ u).2 σ u a b 0 hσ hu
    (by omega) ha hb (bm_self σ u) (by simpa using bm_sib σ u hσ hu)
    (by simpa using bm_pred σ u hσ hu) (by omega) haI
  simpa using h

/-- One step on a single-bit-corrupted pair: the true edge `(σ, u)` still wins,
now with metric `a + 1` and true provenance, and every state's new metric is
at least `min (a + 1) b`. -/
lemma vitStep_flip (pmt : Row4 Nat) (σ u j a b : Nat) (hσ : σ < 4) (hu : u ≤ 1)
    (hj : j ≤ 1)
    (ha : pmt.get σ = a) (hb : ∀ s, s < 4 → s ≠ σ → b ≤ pmt.get s)
    (hab : a + 1 ≤ b) (haI : a + 2 ≤ INF) :
    (vitStep pmt (flipPair j (OUT_BITS σ u)).1 (flipPair j (OUT_BITS σ u)).2).pm.get
        (NEXT_STATE σ u) = a + 1 ∧
    (vitStep pmt (flipPair j (OUT_BITS σ u)).1 (flipPair j (OUT_BITS σ u)).2).pv.get
        (NEXT_STATE σ u) = (σ : Int) ∧
    (vitStep pmt (flipPair j (OUT_BITS σ u)).1 (flipPair j (OUT_BITS σ u)).2).pu.get
        (NEXT_STATE σ u) = (u : Int) ∧
    ∀ k, k < 4 →
      min (a + 1) b ≤ (vitStep pmt (flipPair j (OUT_BITS σ u)).1
        (flipPair j (OUT_BITS σ u)).2).pm.get k := by
  have h := vitStep_core pmt (flipPair j (OUT_BITS σ u)).1 (flipPair j (OUT_BITS σ u)).2
    σ u a b 1 hσ hu (by omega) ha hb (bm_self_flip σ u j hσ hu hj)
    (by simpa using bm_sib_flip σ u j hσ hu hj)
    (by simpa using bm_pred_flip σ u j hσ hu hj) (by omega) haI
  refine ⟨h.1, h.2.1, h.2.2.1, ?_⟩
  intro k hk
  by_cases hkτ : k = NEXT_STATE σ u
  · subst hkτ
    rw [h.1]
    omega
  · have := h.2.2.2 k hk hkτ
    omega

/-! ## Forward/traceback bookkeeping -/

lemma vitTables_len (row : Row4 Nat) (pairs : List (Nat × Nat)) :
    (vitTables row pairs).2.1.length = pairs.length ∧
    (vitTables row pairs).2.2.length = pairs.length := by
  induction pairs generalizing row with
  | nil => simp [vitTables]
  | cons p rest ih =>
    obtain ⟨r1, r0⟩ := p
    simpa [vitTables] using ih (vitStep row r1 r0).pm

lemma vitTables_append (row : Row4 Nat) (p1 p2 : List (Nat × Nat)) :
    vitTables row (p1 ++ p2) =
      ((vitTables (vitTables row p1).1 p2).1,
       ((vitTables row p1).2.1 ++ (vitTables (vitTables row p1).1 p2).2.1,
        (vitTables row p1).2.2 ++ (vitTables (vitTables row p1).1 p2).2.2)) := by
  induction p1 generalizing row with
  | nil => simp [vitTables]
  | cons p rest ih =>
    obtain ⟨r1, r0⟩ := p
    simp [vitTables, ih]

lemma tbState_append (m1 m2 : List (Row4 Int)) (s : Nat) :
    tbState (m1 ++ m2) s = tbState m2 (tbState m1 s) := by
  induction m1 generalizing s with
  | nil => simp [tbState]
  | cons pv pvs ih => simp [tbState, ih]

lemma tracebackRev_append (l1 : List (Row4 Int)) (m1 : List (Row4 Int))
    (l2 m2 : List (Row4 Int)) (s : Nat) (hlen : l1.length = m1.length) :
    tracebackRev (l1 ++ l2) (m1 ++ m2) s =
      tracebackRev l1 m1 s ++ tracebackRev l2 m2 (tbState m1 s) := by
  induction l1 generalizing m1 s with
  | nil =>
    cases m1 with
    | nil => simp [tracebackRev, tbState]
    | cons pv pvs => simp at hlen
  | cons pu pus ih =>
    cases m1 with
    | nil => simp at hlen
    | cons pv pvs =>
      simp only [List.cons_append, tracebackRev, tbState, List.cons.injEq]
      exact ⟨trivial, ih pvs _ (by simpa using hlen)⟩

/-- Invariant run of the decoder's forward pass over a noiseless received
segment generated along the true path from state σ: the true path keeps metric
`a` and true provenance at every step, all other states stay at metric ≥ `b`,
and tracing back from the true end state recovers the segment's input bits and
lands back on σ. -/
lemma vit_run (x : List Nat) (σ : Nat) (row : Row4 Nat) (a b : Nat)
    (hx : IsBits x) (hσ : σ < 4)
    (ha : row.get σ = a) (hb : ∀ s, s < 4 → s ≠ σ → b ≤ row.get s)
    (hab : a ≤ b + 1) (hba : b ≤ a + 2) (haI : a + 2 ≤ INF) :
    (vitTables row (encFrom σ x)).1.get (endSt σ x) = a ∧
    (∀ s, s < 4 → s ≠ endSt σ x → b ≤ (vitTables row (encFrom σ x)).1.get s) ∧
    tracebackRev (vitTables row (encFrom σ x)).2.2.reverse
        (vitTables row (encFrom σ x)).2.1.reverse (endSt σ x)
      = (x.map Int.ofNat).reverse ∧
    tbState (vitTables row (encFrom σ x)).2.1.reverse (endSt σ x) = σ := by
  induction x generalizing σ row with
  | nil =>
    refine ⟨ha, hb, ?_, ?_⟩ <;> simp [encFrom, endSt, vitTables, tracebackRev, tbState]
  | cons u rest ih =>
    have hu : u ≤ 1 := hx u (List.mem_cons_self u rest)
    have hrest : IsBits rest := fun c hc => hx c (List.mem_cons_of_mem u hc)
    obtain ⟨h1, h2, h3, h4⟩ := vitStep_noiseless row σ u a b hσ hu ha hb hab haI
    have hothers : ∀ s, s < 4 → s ≠ NEXT_STATE σ u →
        b ≤ (vitStep row (OUT_BITS σ u).1 (OUT_BITS σ u).2).pm.get s := by
      intro s hs hne
      have := h4 s hs hne
      omega
    obtain ⟨ih1, ih2, ih3, ih4⟩ :=
      ih _ _ hrest (NEXT_STATE_lt σ u) h1 hothers
    have hlen := vitTables_len
      (vitStep row (OUT_BITS σ u).1 (OUT_BITS σ u).2).pm (encFrom (NEXT_STATE σ u) rest)
    refine ⟨?_, ?_, ?_, ?_⟩
    · simpa [encFrom, endSt, vitTables] using ih1
    · simpa [encFrom, endSt, vitTables] using ih2
    · simp only [encFrom, endSt, vitTables, List.map_cons, List.reverse_cons]
      rw [tracebackRev_append _ _ _ _ _ (by simp [hlen.1, hlen.2])]
      rw [ih3, ih4]
      simp [tracebackRev, h3, h2]
    · simp only [encFrom, endSt, vitTables, List.reverse_cons]
      rw [tbState_append, ih4]
      simp [tbState, h2]

/-! ## Round trip over a zero-error channel (C1) -/

lemma endSt_twoZeros (σ : Nat) (hσ : σ < 4) : endSt σ [0, 0] = 0 := by
  interval_cases σ <;> decide

lemma endSt_tail (σ : Nat) (y : List Nat) (hσ : σ < 4) :
    endSt σ (y ++ [0, 0]) = 0 := by
  rw [endSt_append]
  exact endSt_twoZeros _ (endSt_lt y hσ)

lemma argmin4_zero (r : Row4 Nat) (h1 : r.e0 ≤ r.e1) (h2 : r.e0 ≤ r.e2)
    (h3 : r.e0 ≤ r.e3) : argmin4 r = 0 := by
  unfold argmin4
  simp only [apply_ite (fun p : Nat × Nat => p.1), apply_ite (fun p : Nat × Nat => p.2)]
  split_ifs <;> omega

lemma add_tail_eq (B : List Nat) : add_tail B = B ++ [0, 0] := rfl

lemma IsBits_add_tail (B : List Nat) (hB : IsBits B) : IsBits (add_tail B) := by
  rw [add_tail_eq]
  intro c hc
  rcases List.mem_append.mp hc with h | h
  · exact hB c h
  · simp at h
    omega

lemma take_map_append (B t : List Nat) (f : Nat → Int) :
    ((B ++ t).map f).take B.length = B.map f := by
  rw [List.map_append, show B.length = (B.map f).length by simp, List.take_left]

lemma pm0_others : ∀ s, s < 4 → s ≠ 0 → 2 ≤ pm0.get s := by
  intro s hs hne
  interval_cases s <;> first | omega | norm_num [pm0, Row4.get, INF]

/-- C1. Noiseless round trip: decoding the encoded tail-terminated payload
recovers the payload in the first `len(B)` decoded positions. -/
theorem C1_noiseless_roundtrip (B : List Nat) (hB : IsBits B) :
    (viterbi_decode_hard_7_5 (conv_encode_7_5 (add_tail B))).take B.length
      = B.map Int.ofNat := by
  have hx : IsBits (add_tail B) := IsBits_add_tail B hB
  have hpairs : toPairs (conv_encode_7_5 (add_tail B)) = encFrom 0 (add_tail B) := by
    rw [conv_encode_eq_encFrom _ hx, toPairs_flat]
  have hend : endSt 0 (add_tail B) = 0 := by
    rw [add_tail_eq]
    exact endSt_tail 0 B (by omega)
  obtain ⟨h1, h2, h3, h4⟩ :=
    vit_run (add_tail B) 0 pm0 0 2 hx (by omega) rfl pm0_others
      (by omega) (by omega) (by norm_num [INF])
  rw [hend] at h1 h2 h3 h4
  have hargmin : argmin4 (vitTables pm0 (encFrom 0 (add_tail B))).1 = 0 := by
    refine argmin4_zero _ ?_ ?_ ?_ <;>
    · have h0 : (vitTables pm0 (encFrom 0 (add_tail B))).1.e0 = 0 := h1
      rw [h0]
      first
        | exact le_trans (by omega) (h2 1 (by omega) (by omega))
        | exact le_trans (by omega) (h2 2 (by omega) (by omega))
        | exact le_trans (by omega) (h2 3 (by omega) (by omega))
  simp only [viterbi_decode_hard_7_5]
  rw [hpairs, hargmin, h3, List.reverse_reverse, add_tail_eq, take_map_append]

/-! ## Single coded-bit-flip correction (C2) -/

/-- Flip the coded bit at flat position `i` (xor with 1). -/
def flipAt (l : List Nat) (i : Nat) : List Nat := l.set i ((l.getD i 0) ^^^ 1)

lemma flat_flipAt :
    ∀ (P : List (Nat × Nat)) (i : Nat), i < 2 * P.length →
      flipAt (flat P) i = flat (P.set (i / 2) (flipPair (i % 2) (P.getD (i / 2) (0, 0)))) := by
  intro P
  induction P with
  | nil => intro i hi; simp at hi
  | cons p rest ih =>
    intro i hi
    obtain ⟨a, b⟩ := p
    match i with
    | 0 => simp [flipAt, flat, flipPair]
    | 1 => simp [flipAt, flat, flipPair]
    | n + 2 =>
      have hn : n < 2 * rest.length := by simp at hi; omega
      have h2 : (n + 2) / 2 = n / 2 + 1 := by omega
      have h3 : (n + 2) % 2 = n % 2 := by omega
      simp only [flipAt, flat, List.set, List.getD_cons_succ, h2, h3,
        List.getD, List.get?_cons_succ]
      have := ih n hn
      simp only [flipAt, List.getD] at this
      rw [this]

lemma set_append_len {α : Type} (l1 : List α) (a : α) (l2 : List α) (v : α) :
    (l1 ++ a :: l2).set l1.length v = l1 ++ v :: l2 := by
  induction l1 with
  | nil => rfl
  | cons c cs ih => simp [List.set, ih]

lemma getD_append_len {α : Type} (l1 : List α) (a : α) (l2 : List α) (d : α) :
    (l1 ++ a :: l2).getD l1.length d = a := by
  induction l1 with
  | nil => rfl
  | cons c cs ih => simpa using ih

/-- C2. Single coded-bit-flip correction: flipping any one coded bit of the
encoded tail-terminated payload still decodes to the payload in the first
`len(B)` positions. -/
theorem C2_single_flip_correction (B : List Nat) (hB : IsBits B) (i : Nat)
    (hi : i < (conv_encode_7_5 (add_tail B)).length) :
    (viterbi_decode_hard_7_5 (flipAt (conv_encode_7_5 (add_tail B)) i)).take B.length
      = B.map Int.ofNat := by
  have hx : IsBits (add_tail B) := IsBits_add_tail B hB
  have henc : conv_encode_7_5 (add_tail B) = flat (encFrom 0 (add_tail B)) :=
    conv_encode_eq_encFrom _ hx
  have hiP : i < 2 * (encFrom 0 (add_tail B)).length := by
    rw [henc, flat_length] at hi
    exact hi
  have hkP : i / 2 < (encFrom 0 (add_tail B)).length := by omega
  have hkx : i / 2 < (add_tail B).length := by
    rw [encFrom_length] at hkP
    exact hkP
  have hxdec : (add_tail B).take (i / 2) ++
      (add_tail B).getD (i / 2) 0 :: (add_tail B).drop (i / 2 + 1) = add_tail B := by
    rw [List.getD_eq_getElem _ _ hkx, ← List.drop_eq_getElem_cons hkx,
      List.take_append_drop]
  set x1 := (add_tail B).take (i / 2) with hx1def
  set u := (add_tail B).getD (i / 2) 0 with hudef
  set x2 := (add_tail B).drop (i / 2 + 1) with hx2def
  have hx1len : x1.length = i / 2 := by
    rw [hx1def]
    simp [List.length_take]
    omega
  have hbits1 : IsBits x1 := fun c hc => hx c (List.mem_of_mem_take hc)
  have hbits2 : IsBits x2 := fun c hc => hx c (List.mem_of_mem_drop hc)
  have hu : u ≤ 1 := by
    rw [hudef, List.getD_eq_getElem _ _ hkx]
    exact hx _ (List.getElem_mem _)
  have hσ1 : endSt 0 x1 < 4 := endSt_lt x1 (by omega)
  have hP : encFrom 0 (add_tail B) =
      encFrom 0 x1 ++ OUT_BITS (endSt 0 x1) u
        :: encFrom (NEXT_STATE (endSt 0 x1) u) x2 := by
    conv_lhs => rw [← hxdec]
    rw [encFrom_append]
    rfl
  have hlen1 : (encFrom 0 x1).length = i / 2 := by
    rw [encFrom_length]
    exact hx1len
  have hflip : flipAt (conv_encode_7_5 (add_tail B)) i =
      flat (encFrom 0 x1 ++ flipPair (i % 2) (OUT_BITS (endSt 0 x1) u)
        :: encFrom (NEXT_STATE (endSt 0 x1) u) x2) := by
    rw [henc, flat_flipAt _ i hiP, hP]
    congr 1
    rw [← hlen1, getD_append_len, set_append_len]
  obtain ⟨p1a, p1b, p1c, p1d⟩ :=
    vit_run x1 0 pm0 0 2 hbits1 (by omega) rfl pm0_others
      (by omega) (by omega) (by norm_num [INF])
  obtain ⟨f1, f2, f3, f4⟩ :=
    vitStep_flip (vitTables pm0 (encFrom 0 x1)).1 (endSt 0 x1) u (i % 2) 0 2
      hσ1 hu (by omega) p1a p1b (by omega) (by norm_num [INF])
  have hall1 : ∀ s, s < 4 → s ≠ NEXT_STATE (endSt 0 x1) u →
      1 ≤ (vitStep (vitTables pm0 (encFrom 0 x1)).1
        (flipPair (i % 2) (OUT_BITS (endSt 0 x1) u)).1
        (flipPair (i % 2) (OUT_BITS (endSt 0 x1) u)).2).pm.get s := by
    intro s hs _
    have := f4 s hs
    omega
  obtain ⟨q1, q2, q3, q4⟩ :=
    vit_run x2 (NEXT_STATE (endSt 0 x1) u) _ 1 1 hbits2
      (NEXT_STATE_lt _ _) (by simpa using f1) hall1
      (by omega) (by omega) (by norm_num [INF])
  have hend2 : endSt (NEXT_STATE (endSt 0 x1) u) x2 = 0 := by
    have h0 : endSt 0 (add_tail B) = 0 := by
      rw [add_tail_eq]
      exact endSt_tail 0 B (by omega)
    have hsplit : endSt 0 (add_tail B) = endSt (NEXT_STATE (endSt 0 x1) u) x2 := by
      conv_lhs => rw [← hxdec]
      rw [endSt_append]
      rfl
    rw [← hsplit, h0]
  rw [hend2] at q1 q2 q3 q4
  simp only [viterbi_decode_hard_7_5]
  rw [hflip, toPairs_flat, vitTables_append]
  have hmid :
      vitTables (vitTables pm0 (encFrom 0 x1)).1
        (flipPair (i % 2) (OUT_BITS (endSt 0 x1) u)
          :: encFrom (NEXT_STATE (endSt 0 x1) u) x2) =
      ((vitTables (vitStep (vitTables pm0 (encFrom 0 x1)).1
          (flipPair (i % 2) (OUT_BITS (endSt 0 x1) u)).1
          (flipPair (i % 2) (OUT_BITS (endSt 0 x1) u)).2).pm
          (encFrom (NEXT_STATE (endSt 0 x1) u) x2)).1,
        ((vitStep (vitTables pm0 (encFrom 0 x1)).1
          (flipPair (i % 2) (OUT_BITS (endSt 0 x1) u)).1
          (flipPair (i % 2) (OUT_BITS (endSt 0 x1) u)).2).pv
          :: (vitTables (vitStep (vitTables pm0 (encFrom 0 x1)).1
            (flipPair (i % 2) (OUT_BITS (endSt 0 x1) u)).1
            (flipPair (i % 2) (OUT_BITS (endSt 0 x1) u)).2).pm
            (encFrom (NEXT_STATE (endSt 0 x1) u) x2)).2.1,
         (vitStep (vitTables pm0 (encFrom 0 x1)).1
          (flipPair (i % 2) (OUT_BITS (endSt 0 x1) u)).1
          (flipPair (i % 2) (OUT_BITS (endSt 0 x1) u)).2).pu
          :: (vitTables (vitStep (vitTables pm0 (encFrom 0 x1)).1
            (flipPair (i % 2) (OUT_BITS (endSt 0 x1) u)).1
            (flipPair (i % 2) (OUT_BITS (endSt 0 x1) u)).2).pm
            (encFrom (NEXT_STATE (endSt 0 x1) u) x2)).2.2)) := rfl
  rw [hmid]
  have hargmin :
      argmin4 (vitTables (vitStep (vitTables pm0 (encFrom 0 x1)).1
        (flipPair (i % 2) (OUT_BITS (endSt 0 x1) u)).1
        (flipPair (i % 2) (OUT_BITS (endSt 0 x1) u)).2).pm
        (encFrom (NEXT_STATE (endSt 0 x1) u) x2)).1 = 0 := by
    refine argmin4_zero _ ?_ ?_ ?_ <;>
    · have h0 : (vitTables (vitStep (vitTables pm0 (encFrom 0 x1)).1
          (flipPair (i % 2) (OUT_BITS (endSt 0 x1) u)).1
          (flipPair (i % 2) (OUT_BITS (endSt 0 x1) u)).2).pm
          (encFrom (NEXT_STATE (endSt 0 x1) u) x2)).1.e0 = 1 := q1
      rw [h0]
      first
        | exact le_trans (by omega) (q2 1 (by omega) (by omega))
        | exact le_trans (by omega) (q2 2 (by omega) (by omega))
        | exact le_trans (by omega) (q2 3 (by omega) (by omega))
  rw [hargmin]
  have hlen2 := vitTables_len (vitStep (vitTables pm0 (encFrom 0 x1)).1
    (flipPair (i % 2) (OUT_BITS (endSt 0 x1) u)).1
    (flipPair (i % 2) (OUT_BITS (endSt 0 x1) u)).2).pm
    (encFrom (NEXT_STATE (endSt 0 x1) u) x2)
  simp only [List.reverse_append, List.reverse_cons]
  rw [tracebackRev_append _ _ _ _ _ (by simp [hlen2.1, hlen2.2])]
  rw [tracebackRev_append _ _ _ _ _ (by simp [hlen2.1, hlen2.2])]
  rw [q3, tbState_append, q4]
  have hstep_tb :
      tracebackRev
        [(vitStep (vitTables pm0 (encFrom 0 x1)).1
          (flipPair (i % 2) (OUT_BITS (endSt 0 x1) u)).1
          (flipPair (i % 2) (OUT_BITS (endSt 0 x1) u)).2).pu]
        [(vitStep (vitTables pm0 (encFrom 0 x1)).1
          (flipPair (i % 2) (OUT_BITS (endSt 0 x1) u)).1
          (flipPair (i % 2) (OUT_BITS (endSt 0 x1) u)).2).pv]
        (NEXT_STATE (endSt 0 x1) u) = [(u : Int)] := by
    simp [tracebackRev, f3]
  have hstep_st :
      tbState
        [(vitStep (vitTables pm0 (encFrom 0 x1)).1
          (flipPair (i % 2) (OUT_BITS (endSt 0 x1) u)).1
          (flipPair (i % 2) (OUT_BITS (endSt 0 x1) u)).2).pv]
        (NEXT_STATE (endSt 0 x1) u) = endSt 0 x1 := by
    simp [tbState, f2]
  rw [hstep_tb, hstep_st, p1c]
  have hbig : (((x2.map Int.ofNat).reverse ++ [(u : Int)]) ++ (x1.map Int.ofNat).reverse).reverse
      = (x1 ++ u :: x2).map Int.ofNat := by
    simp [Int.ofNat_eq_coe]
  rw [hbig, hxdec, add_tail_eq, take_map_append]

theorem C1_noiseless_roundtrip_witness :
    (viterbi_decode_hard_7_5 (conv_encode_7_5 (add_tail [1, 0, 1]))).take
        ([1, 0, 1] : List Nat).length
      = ([1, 0, 1] : List Nat).map Int.ofNat :=
  C1_noiseless_roundtrip [1, 0, 1] (by decide)

theorem C2_single_flip_correction_witness :
    (viterbi_decode_hard_7_5 (flipAt (conv_encode_7_5 (add_tail [1, 1, 0, 1, 1])) 6)).take
        ([1, 1, 0, 1, 1] : List Nat).length
      = ([1, 1, 0, 1, 1] : List Nat).map Int.ofNat :=
  C2_single_flip_correction [1, 1, 0, 1, 1] (by decide) 6 (by decide)

/-! ## Deterministic tie-break (C3) -/

lemma accInit_pv (k : Nat) : accInit.pv.get k = -1 := by
  unfold accInit Row4.get
  split_ifs <;> rfl

lemma accInit_pu (k : Nat) : accInit.pu.get k = -1 := by
  unfold accInit Row4.get
  split_ifs <;> rfl

/-- C3. Strict-less update with deterministic tie-break: for any target state
`ns`, the two candidates arrive from predecessor states `ns/2` (earlier) and
`ns/2 + 2` (later), both via input bit `ns % 2`; when both predecessors are
live and the earlier candidate is less than or equal to the later one (ties
included), the stored metric is the earlier candidate and the recorded
provenance is the earlier-computed predecessor. -/
theorem C3_tie_break_earliest (row : Row4 Nat) (r1 r0 ns : Nat) (hns : ns < 4)
    (h1 : row.get (ns / 2) < INF)
    (h2 : row.get (ns / 2 + 2) < INF)
    (hc1 : row.get (ns / 2) + bmOf (ns / 2) (ns % 2) r1 r0 < INF)
    (htie : row.get (ns / 2) + bmOf (ns / 2) (ns % 2) r1 r0
          ≤ row.get (ns / 2 + 2) + bmOf (ns / 2 + 2) (ns % 2) r1 r0) :
    (vitStep row r1 r0).pm.get ns
        = row.get (ns / 2) + bmOf (ns / 2) (ns % 2) r1 r0 ∧
    (vitStep row r1 r0).pv.get ns = ((ns / 2 : Nat) : Int) ∧
    (vitStep row r1 r0).pu.get ns = ((ns % 2 : Nat) : Int) := by
  interval_cases ns
  · -- ns = 0: pred 0 (earlier) and 2 (later), input bit 0
    have hstep : vitStep row r1 r0 =
        vitFold row r1 r0 (vitState row r1 r0 accInit 0) [1, 2, 3] := rfl
    have hfire := vitState_fire row r1 r0 accInit 0 0 (by omega)
      (by simpa using h1)
      (by rw [show NEXT_STATE 0 0 = 0 from rfl, accInit_pm]; simpa using hc1)
      (by decide)
    rw [show NEXT_STATE 0 0 = 0 from rfl] at hfire
    rw [hstep]
    refine vitFold_keep row r1 r0 [1, 2, 3] _ 0 _ _ _ (by omega)
      hfire.1 hfire.2.1 hfire.2.2 ?_
    intro i hi w hw hN
    fin_cases hi <;> interval_cases w <;>
      first
        | exact absurd hN (by decide)
        | simpa using htie
  · -- ns = 1: pred 0 (earlier) and 2 (later), input bit 1
    have hstep : vitStep row r1 r0 =
        vitFold row r1 r0 (vitState row r1 r0 accInit 0) [1, 2, 3] := rfl
    have hfire := vitState_fire row r1 r0 accInit 0 1 (by omega)
      (by simpa using h1)
      (by rw [show NEXT_STATE 0 1 = 1 from rfl, accInit_pm]; simpa using hc1)
      (by decide)
    rw [show NEXT_STATE 0 1 = 1 from rfl] at hfire
    rw [hstep]
    refine vitFold_keep row r1 r0 [1, 2, 3] _ 1 _ _ _ (by omega)
      hfire.1 hfire.2.1 hfire.2.2 ?_
    intro i hi w hw hN
    fin_cases hi <;> interval_cases w <;>
      first
        | exact absurd hN (by decide)
        | simpa using htie
  · -- ns = 2: pred 1 (earlier) and 3 (later), input bit 0
    have hstep : vitStep row r1 r0 =
        vitFold row r1 r0
          (vitState row r1 r0 (vitState row r1 r0 accInit 0) 1) [2, 3] := rfl
    have hpre := vitState_keep row r1 r0 accInit 0 2 INF (-1) (-1) (by omega)
      (accInit_pm 2) (accInit_pv 2) (accInit_pu 2)
      (by intro w hw hN; interval_cases w <;> exact absurd hN (by decide))
    have hfire := vitState_fire row r1 r0 (vitState row r1 r0 accInit 0) 1 0 (by omega)
      (by simpa using h1)
      (by rw [show NEXT_STATE 1 0 = 2 from rfl, hpre.1]; simpa using hc1)
      (by decide)
    rw [show NEXT_STATE 1 0 = 2 from rfl] at hfire
    rw [hstep]
    refine vitFold_keep row r1 r0 [2, 3] _ 2 _ _ _ (by omega)
      hfire.1 hfire.2.1 hfire.2.2 ?_
    intro i hi w hw hN
    fin_cases hi <;> interval_cases w <;>
      first
        | exact absurd hN (by decide)
        | simpa using htie
  · -- ns = 3: pred 1 (earlier) and 3 (later), input bit 1
    have hstep : vitStep row r1 r0 =
        vitFold row r1 r0
          (vitState row r1 r0 (vitState row r1 r0 accInit 0) 1) [2, 3] := rfl
    have hpre := vitState_keep row r1 r0 accInit 0 3 INF (-1) (-1) (by omega)
      (accInit_pm 3) (accInit_pv 3) (accInit_pu 3)
      (by intro w hw hN; interval_cases w <;> exact absurd hN (by decide))
    have hfire := vitState_fire row r1 r0 (vitState row r1 r0 accInit 0) 1 1 (by omega)
      (by simpa using h1)
      (by rw [show NEXT_STATE 1 1 = 3 from rfl, hpre.1]; simpa using hc1)
      (by decide)
    rw [show NEXT_STATE 1 1 = 3 from rfl] at hfire
    rw [hstep]
    refine vitFold_keep row r1 r0 [2, 3] _ 3 _ _ _ (by omega)
      hfire.1 hfire.2.1 hfire.2.2 ?_
    intro i hi w hw hN
    fin_cases hi <;> interval_cases w <;>
      first
        | exact absurd hN (by decide)
        | simpa using htie

theorem C3_tie_break_earliest_witness :
    (vitStep ⟨0, INF, 0, INF⟩ 0 1).pm.get 0
        = Row4.get ⟨0, INF, 0, INF⟩ (0 / 2) + bmOf (0 / 2) (0 % 2) 0 1 ∧
    (vitStep ⟨0, INF, 0, INF⟩ 0 1).pv.get 0 = ((0 / 2 : Nat) : Int) ∧
    (vitStep ⟨0, INF, 0, INF⟩ 0 1).pu.get 0 = ((0 % 2 : Nat) : Int) :=
  C3_tie_break_earliest ⟨0, INF, 0, INF⟩ 0 1 0 (by omega)
    (by decide) (by decide) (by decide) (by decide)

/-! ## The INF sentinel and the accumulated-metric bound (C8) -/

lemma bmOf_le (s w r1 r0 : Nat) (hs : s < 4) (hw : w ≤ 1) (hr1 : r1 ≤ 1)
    (hr0 : r0 ≤ 1) : bmOf s w r1 r0 ≤ 2 := by
  interval_cases s <;> interval_cases w <;> interval_cases r1 <;> interval_cases r0 <;>
    decide

lemma vitUpd_pm_cases (pmt : Row4 Nat) (r1 r0 : Nat) (acc : StepAcc) (s w k : Nat)
    (hk : k < 4) :
    (vitUpd pmt r1 r0 acc s w).pm.get k = acc.pm.get k ∨
    (vitUpd pmt r1 r0 acc s w).pm.get k = pmt.get s + bmOf s w r1 r0 := by
  simp only [vitUpd]
  split_ifs with hlt
  · by_cases hks : k = NEXT_STATE s w
    · subst hks
      exact Or.inr (Row4.get_set_eq _ _ _ hk)
    · exact Or.inl (Row4.get_set_ne _ _ _ _ (NEXT_STATE_lt s w) hk hks)
  · exact Or.inl rfl

lemma vitState_pm_cases (pmt : Row4 Nat) (r1 r0 : Nat) (acc : StepAcc) (s k : Nat)
    (hk : k < 4) :
    (vitState pmt r1 r0 acc s).pm.get k = acc.pm.get k ∨
    (pmt.get s < INF ∧ ∃ w, w ≤ 1 ∧
      (vitState pmt r1 r0 acc s).pm.get k = pmt.get s + bmOf s w r1 r0) := by
  unfold vitState
  split_ifs with hskip
  · exact Or.inl rfl
  · rcases vitUpd_pm_cases pmt r1 r0 (vitUpd pmt r1 r0 acc s 0) s 1 k hk with h | h
    · rcases vitUpd_pm_cases pmt r1 r0 acc s 0 k hk with h0 | h0
      · exact Or.inl (h.trans h0)
      · exact Or.inr ⟨by omega, 0, by omega, h.trans h0⟩
    · exact Or.inr ⟨by omega, 1, by omega, h⟩

lemma vitFold_pm_le (pmt : Row4 Nat) (r1 r0 : Nat) (M : Nat)
    (hr1 : r1 ≤ 1) (hr0 : r0 ≤ 1)
    (hrow : ∀ s, s < 4 → pmt.get s = INF ∨ pmt.get s ≤ M) :
    ∀ (stages : List Nat) (acc : StepAcc), (∀ i ∈ stages, i < 4) →
      (∀ k, k < 4 → acc.pm.get k = INF ∨ acc.pm.get k ≤ M + 2) →
      ∀ k, k < 4 → (vitFold pmt r1 r0 acc stages).pm.get k = INF ∨
        (vitFold pmt r1 r0 acc stages).pm.get k ≤ M + 2 := by
  intro stages
  induction stages with
  | nil => intro acc _ hacc k hk; exact hacc k hk
  | cons s rest ih =>
    intro acc hst hacc k hk
    refine ih _ (fun i hi => hst i (List.mem_cons_of_mem s hi)) ?_ k hk
    intro j hj
    rcases vitState_pm_cases pmt r1 r0 acc s j hj with h | ⟨hlive, w, hw, h⟩
    · rw [h]; exact hacc j hj
    · rw [h]
      have hsM : pmt.get s ≤ M := by
        rcases hrow s (hst s (List.mem_cons_self s rest)) with h' | h' <;> omega
      have := bmOf_le s w r1 r0 (hst s (List.mem_cons_self s rest)) hw hr1 hr0
      omega

lemma vitStep_pm_le (pmt : Row4 Nat) (r1 r0 : Nat) (M : Nat)
    (hr1 : r1 ≤ 1) (hr0 : r0 ≤ 1)
    (hrow : ∀ s, s < 4 → pmt.get s = INF ∨ pmt.get s ≤ M) :
    ∀ k, k < 4 → (vitStep pmt r1 r0).pm.get k = INF ∨
      (vitStep pmt r1 r0).pm.get k ≤ M + 2 := by
  refine vitFold_pm_le pmt r1 r0 M hr1 hr0 hrow [0, 1, 2, 3] accInit ?_ ?_
  · intro i hi
    exact mem0123 hi
  · intro k hk
    rw [accInit_pm]
    exact Or.inl rfl

lemma vitTables_pm_le :
    ∀ (pairs : List (Nat × Nat)) (row : Row4 Nat) (M : Nat),
      (∀ p ∈ pairs, p.1 ≤ 1 ∧ p.2 ≤ 1) →
      (∀ s, s < 4 → row.get s = INF ∨ row.get s ≤ M) →
      ∀ s, s < 4 → (vitTables row pairs).1.get s = INF ∨
        (vitTables row pairs).1.get s ≤ M + 2 * pairs.length := by
  intro pairs
  induction pairs with
  | nil =>
    intro row M _ hrow s hs
    rcases hrow s hs with h | h
    · exact Or.inl h
    · exact Or.inr (by simpa using h)
  | cons p rest ih =>
    intro row M hp hrow s hs
    have hp1 := (hp p (List.mem_cons_self p rest)).1
    have hp0 := (hp p (List.mem_cons_self p rest)).2
    have hnext := vitStep_pm_le row p.1 p.2 M hp1 hp0 hrow
    have := ih (vitStep row p.1 p.2).pm (M + 2)
      (fun q hq => hp q (List.mem_cons_of_mem p hq)) hnext s hs
    rcases this with h | h
    · exact Or.inl (by simpa [vitTables] using h)
    · refine Or.inr ?_
      have hlen : (M + 2) + 2 * rest.length = M + 2 * (p :: rest).length := by
        simp [List.length_cons]
        omega
      rw [← hlen]
      simpa [vitTables] using h

lemma toPairs_bits : ∀ (rx : List Nat), IsBits rx →
    ∀ p ∈ toPairs rx, p.1 ≤ 1 ∧ p.2 ≤ 1
  | [], _, p, hp => by simp [toPairs] at hp
  | [r], _, p, hp => by simp [toPairs] at hp
  | r1 :: r0 :: rest, hrx, p, hp => by
    simp only [toPairs, List.mem_cons] at hp
    rcases hp with rfl | hp
    · exact ⟨hrx r1 (by simp), hrx r0 (by simp)⟩
    · exact toPairs_bits rest (fun c hc => hrx c (by simp [hc])) p hp

lemma toPairs_length : ∀ (rx : List Nat), (toPairs rx).length = rx.length / 2
  | [] => by simp [toPairs]
  | [r] => by simp [toPairs]
  | r1 :: r0 :: rest => by
    simp only [toPairs, List.length_cons, toPairs_length rest]
    omega

/-- The claim as stated is false: `INF` is the fixed constant `10^9`, so for
a received sequence of `10^9` bits (T = 5·10^8 pairs) the asserted bound
`INF > 2T` fails. -/
theorem C8_counterexample :
    ¬ (2 * ((List.replicate (10 ^ 9) (0 : Nat)).length / 2) < INF) := by
  rw [List.length_replicate]
  norm_num [INF]

/-- C8 (amended): for every received bit sequence with fewer than `INF` coded
bits, every entry of the decoder's final path-metric row is either the
untouched `INF` sentinel or a genuine accumulated distance that is at most
`2T`, hence strictly below the sentinel. -/
theorem C8_INF_sentinel_bound (rx : List Nat) (s : Nat) (hrx : IsBits rx)
    (hs : s < 4) (hT : 2 * (rx.length / 2) < INF) :
    (vitTables pm0 (toPairs rx)).1.get s = INF ∨
    ((vitTables pm0 (toPairs rx)).1.get s ≤ 2 * (rx.length / 2) ∧
     (vitTables pm0 (toPairs rx)).1.get s < INF) := by
  have h0 : ∀ k, k < 4 → pm0.get k = INF ∨ pm0.get k ≤ 0 := by
    intro k hk
    interval_cases k <;> simp [pm0, Row4.get]
  have := vitTables_pm_le (toPairs rx) pm0 0 (toPairs_bits rx hrx) h0 s hs
  rw [toPairs_length] at this
  rcases this with h | h
  · exact Or.inl h
  · refine Or.inr ⟨by omega, by omega⟩

theorem C8_INF_sentinel_bound_witness :
    (vitTables pm0 (toPairs [1, 1, 0, 1])).1.get 0 = INF ∨
    ((vitTables pm0 (toPairs [1, 1, 0, 1])).1.get 0 ≤
        2 * (([1, 1, 0, 1] : List Nat).length / 2) ∧
     (vitTables pm0 (toPairs [1, 1, 0, 1])).1.get 0 < INF) :=
  C8_INF_sentinel_bound [1, 1, 0, 1] 0 (by decide) (by omega) (by norm_num [INF])

/-! ## Bit-flip channel (sim/test_ber_sweep.py, lines 11-12)

`rng.random()` returns a uniform draw in [0, 1); draws are modelled as
rationals handed to the channel in call order. -/

/-- `flip_bit(b, p, rng)`: flip `b` iff the generator's next draw is `< p`. -/
def flip_bit (b : Nat) (p : ℚ) (draw : ℚ) : Nat :=
  if draw < p then b ^^^ 1 else b

/-- Line 173: independent Bernoulli flips of both bits of every symbol,
consuming two draws per symbol in order. -/
def apply_flips (p : ℚ) (draws : Nat → ℚ) : Nat → List (Nat × Nat) → List (Nat × Nat)
  | _, [] => []
  | ix, s :: rest =>
    (flip_bit s.1 p (draws ix), flip_bit s.2 p (draws (ix + 1)))
      :: apply_flips p draws (ix + 2) rest

/-- C9. Zero-flip-probability identity: with `p = 0` and any generator state
(every uniform draw is ≥ 0), `flip_bit` is the identity on its bit, and the
channel maps every coded symbol sequence to itself. -/
theorem C9_zero_p_identity (b : Nat) (draw : ℚ) (coded : List (Nat × Nat))
    (draws : Nat → ℚ) (ix : Nat) (hd : 0 ≤ draw) (hds : ∀ j, 0 ≤ draws j) :
    flip_bit b 0 draw = b ∧ apply_flips 0 draws ix coded = coded := by
  constructor
  · unfold flip_bit
    rw [if_neg (by linarith)]
  · induction coded generalizing ix with
    | nil => rfl
    | cons s rest ih =>
      obtain ⟨v1, v0⟩ := s
      simp only [apply_flips, List.cons.injEq]
      refine ⟨?_, ih (ix + 2)⟩
      unfold flip_bit
      rw [if_neg (by have := hds ix; linarith), if_neg (by have := hds (ix + 1); linarith)]

theorem C9_zero_p_identity_witness :
    flip_bit 1 0 (1 / 2) = 1 ∧
    apply_flips 0 (fun _ => (1 : ℚ) / 2) 0 [(1, 0), (0, 1)] = [(1, 0), (0, 1)] :=
  C9_zero_p_identity 1 (1 / 2) [(1, 0), (0, 1)] (fun _ => (1 : ℚ) / 2) 0
    (by norm_num) (fun j => by norm_num)

/-- The C7 claim is false on the code: `flip_bit` performs no validation; for
the negative probability `p = -1` and the draw 1/2 it silently returns the
bit unchanged instead of signalling a configuration error. -/
theorem C7_counterexample : flip_bit 1 (-1) (1 / 2) = 1 := by
  unfold flip_bit
  rw [if_neg (by norm_num)]

/-- C7 (amended): a negative flip probability is never rejected — for every
bit and every generator state, `flip_bit` with `p < 0` silently returns the
bit unchanged, behaving exactly as `p = 0`. -/
theorem C7_negative_p_silently_ignored (b : Nat) (p draw : ℚ) (hp : p < 0)
    (hdraw : 0 ≤ draw) : flip_bit b p draw = b := by
  unfold flip_bit
  rw [if_neg (by linarith)]

theorem C7_negative_p_silently_ignored_witness : flip_bit 0 (-2) (1 / 3) = 0 :=
  C7_negative_p_silently_ignored 0 (-2) (1 / 3) (by norm_num) (by norm_num)

/-! ## The three reference encoders (C10) -/

/-- Loop of `conv_ref` (sim/test_convenc_smoke.py, lines 6-14): registers
`d1, d0`, per bit `y0 = (u ^ d1 ^ d0) & 1`, `y1 = (u ^ d0) & 1`, then
`d0, d1 = d1, u`. -/
def conv_ref_go : Nat → Nat → List Nat → List (Nat × Nat)
  | _, _, [] => []
  | d1, d0, u :: rest =>
    ((u ^^^ d1 ^^^ d0) &&& 1, (u ^^^ d0) &&& 1) :: conv_ref_go u d1 rest

/-- `conv_ref(bits)`: the smoke-test reference encoder, emitting `(y0, y1)`. -/
def conv_ref (bits : List Nat) : List (Nat × Nat) := conv_ref_go 0 0 bits

/-- Loop of `enc_7_5` (sim/test_viterbi_sequence.py, lines 8-17): registers
`s1, s0`, per bit `v1 = u ^ s0 ^ s1`, `v0 = u ^ s1`, then `s1, s0 = s0, u`. -/
def enc_7_5_go : Nat → Nat → List Nat → List (Nat × Nat)
  | _, _, [] => []
  | s1, s0, u :: rest =>
    (u ^^^ s0 ^^^ s1, u ^^^ s1) :: enc_7_5_go s0 u rest

/-- `enc_7_5(u_bits)`: the Viterbi-test reference encoder, emitting `(v1, v0)`. -/
def enc_7_5 (bits : List Nat) : List (Nat × Nat) := enc_7_5_go 0 0 bits

lemma conv_ref_go_encFrom :
    ∀ (x : List Nat) (d1 d0 : Nat), IsBits x → d1 ≤ 1 → d0 ≤ 1 →
      conv_ref_go d1 d0 x = encFrom (2 * d0 + d1) x := by
  intro x
  induction x with
  | nil => intro d1 d0 _ _ _; simp [conv_ref_go, encFrom]
  | cons u rest ih =>
    intro d1 d0 hbits hd1 hd0
    have hu : u ≤ 1 := hbits u (List.mem_cons_self u rest)
    have hrest : IsBits rest := fun c hc => hbits c (List.mem_cons_of_mem u hc)
    interval_cases d1 <;> interval_cases d0 <;> interval_cases u <;>
      simp only [conv_ref_go, encFrom, List.cons.injEq] <;>
      exact ⟨by decide, ih _ _ hrest (by decide) (by decide)⟩

lemma enc_7_5_go_encFrom :
    ∀ (x : List Nat) (s1 s0 : Nat), IsBits x → s1 ≤ 1 → s0 ≤ 1 →
      enc_7_5_go s1 s0 x = encFrom (2 * s1 + s0) x := by
  intro x
  induction x with
  | nil => intro s1 s0 _ _ _; simp [enc_7_5_go, encFrom]
  | cons u rest ih =>
    intro s1 s0 hbits hs1 hs0
    have hu : u ≤ 1 := hbits u (List.mem_cons_self u rest)
    have hrest : IsBits rest := fun c hc => hbits c (List.mem_cons_of_mem u hc)
    interval_cases s1 <;> interval_cases s0 <;> interval_cases u <;>
      simp only [enc_7_5_go, encFrom, List.cons.injEq] <;>
      exact ⟨by decide, ih _ _ hrest (by decide) (by decide)⟩

lemma flat_getD :
    ∀ (P : List (Nat × Nat)) (k : Nat), k < P.length →
      (flat P).getD (2 * k) 0 = (P.getD k (0, 0)).1 ∧
      (flat P).getD (2 * k + 1) 0 = (P.getD k (0, 0)).2 := by
  intro P
  induction P with
  | nil => intro k hk; simp at hk
  | cons p rest ih =>
    intro k hk
    obtain ⟨a, b⟩ := p
    match k with
    | 0 => simp [flat]
    | n + 1 =>
      have h2 : 2 * (n + 1) = (2 * n + 1) + 1 := by omega
      simp only [flat, h2, List.getD_cons_succ]
      exact ih n (by simpa using hk)

/-- C10. The three reference encoder implementations are equivalent: on every
bit sequence, `conv_ref` and `enc_7_5` produce identical pair streams, and
`conv_encode_7_5` is their flattening — so the k-th `(y0, y1)` of `conv_ref`
equals the k-th `(v1, v0)` of `enc_7_5` and equals the pair
`(conv_encode_7_5(bits)[2k], conv_encode_7_5(bits)[2k+1])`. -/
theorem C10_encoders_equivalent (bits : List Nat) (h : IsBits bits) :
    conv_ref bits = enc_7_5 bits ∧
    conv_encode_7_5 bits = flat (conv_ref bits) ∧
    ∀ k, k < bits.length →
      (conv_encode_7_5 bits).getD (2 * k) 0 = ((conv_ref bits).getD k (0, 0)).1 ∧
      (conv_encode_7_5 bits).getD (2 * k + 1) 0 = ((conv_ref bits).getD k (0, 0)).2 := by
  have h1 : conv_ref bits = encFrom 0 bits := by
    simpa using conv_ref_go_encFrom bits 0 0 h (by omega) (by omega)
  have h2 : enc_7_5 bits = encFrom 0 bits := by
    simpa using enc_7_5_go_encFrom bits 0 0 h (by omega) (by omega)
  have h3 : conv_encode_7_5 bits = flat (conv_ref bits) := by
    rw [h1]
    exact conv_encode_eq_encFrom bits h
  refine ⟨h1.trans h2.symm, h3, ?_⟩
  intro k hk
  rw [h3]
  exact flat_getD (conv_ref bits) k
    (by rw [h1, encFrom_length]; exact hk)

theorem C10_encoders_equivalent_witness :
    conv_ref [1, 0, 1, 1, 0, 0, 1] = enc_7_5 [1, 0, 1, 1, 0, 0, 1] ∧
    conv_encode_7_5 [1, 0, 1, 1, 0, 0, 1] = flat (conv_ref [1, 0, 1, 1, 0, 0, 1]) ∧
    (conv_encode_7_5 [1, 0, 1, 1, 0, 0, 1]).getD (2 * 3) 0
        = ((conv_ref [1, 0, 1, 1, 0, 0, 1]).getD 3 (0, 0)).1 ∧
    (conv_encode_7_5 [1, 0, 1, 1, 0, 0, 1]).getD (2 * 3 + 1) 0
        = ((conv_ref [1, 0, 1, 1, 0, 0, 1]).getD 3 (0, 0)).2 :=
  ⟨(C10_encoders_equivalent [1, 0, 1, 1, 0, 0, 1] (by decide)).1,
   (C10_encoders_equivalent [1, 0, 1, 1, 0, 0, 1] (by decide)).2.1,
   (C10_encoders_equivalent [1, 0, 1, 1, 0, 0, 1] (by decide)).2.2 3 (by decide)⟩

/-! ## BER sweep harness (sim/test_ber_sweep.py, lines 59-214) -/

/-- The last `n` elements of a list (`l[-n:]` for `0 < n ≤ len(l)`; the whole
list when it is shorter than `n`). -/
def lastN {α : Type} (l : List α) (n : Nat) : List α := l.drop (l.length - n)

/-- `sum(a != b for a, b in zip(recovered, payload))`. -/
def countErrs : List Int → List Nat → Nat
  | a :: as, b :: bs => (if a = (b : Int) then 0 else 1) + countErrs as bs
  | _, _ => 0

/-- The compared slice of `simulate_ber`
(scripts/generate_readme_artifacts.py, line 117): `dec_payload = dec[:len(payload)]`. -/
def dec_payload (payload : List Nat) (dec : List Int) : List Int :=
  dec.take payload.length

/-- The compared slice of a hardware sweep trial (sim/test_ber_sweep.py,
line 193): `recovered = decided[-PAYLOAD_LEN:]`. -/
def hw_recovered (decided : List Int) (PLEN : Nat) : List Int := lastN decided PLEN

/-- Sweep-trial comparison (lines 192-199): raise on a shortfall of decided
bits, else count bit errors against the payload. -/
def trial_outcome (decided : List Int) (payload : List Nat) : Except String Nat :=
  let recovered := hw_recovered decided payload.length
  if recovered.length ≠ payload.length then Except.error "Not enough decided bits"
  else Except.ok (countErrs recovered payload)

/-- Calibration comparison (`_one_pass_errors`, lines 99-103): same slice, but
a shortfall is returned as `(len(payload), len(recovered))` — "treat as all
wrong if short" — instead of raising. -/
def cal_outcome (decided : List Int) (payload : List Nat) : Nat × Nat :=
  let recovered := hw_recovered decided payload.length
  if recovered.length ≠ payload.length then (payload.length, recovered.length)
  else (countErrs recovered payload, recovered.length)

/-- Modelled from the spec: the RTL encoder/decoder pair driven by the cocotb
harness is not under src/ (only its testbench is). Section 6 describes it as a
deterministic clocked streaming device emitting one symbol pair per pushed
input bit; the clock/valid handshake is abstracted into deterministic stream
functions with the one-pair-per-bit law. -/
structure DutModel where
  encode : List Nat → List (Nat × Nat)
  decode : List (Nat × Nat) → List Int
  encode_length : ∀ l, (encode l).length = l.length

/-- Interpret the raw encoder pins under a calibration mapping:
`true` = `y0_is_v1` keeps `(y0, y1)` as `(v1, v0)`, `false` swaps. -/
def applyMapping (m : Bool) (pairs : List (Nat × Nat)) : List (Nat × Nat) :=
  if m then pairs else pairs.map (fun p => (p.2, p.1))

/-- Modelled from the spec: `rng.randint(0, 1)` payload draws share the same
generator sequence as the channel draws; a draw below 1/2 yields bit 0. -/
def randBit (q : ℚ) : Nat := if q < 1 / 2 then 0 else 1

/-- Payload generation `[rng.randint(0, 1) for _ in range(n)]`, consuming
draws `ix, ix+1, ...` in call order. -/
def genBits (draws : Nat → ℚ) (ix n : Nat) : List Nat :=
  (List.range n).map (fun t => randBit (draws (ix + t)))

/-- `_one_pass_errors` (lines 59-103): one noiseless payload+tail pass through
encoder and decoder under a candidate mapping. -/
def one_pass_errors (dut : DutModel) (m : Bool) (payload : List Nat) (TB : Nat) :
    Nat × Nat :=
  cal_outcome (dut.decode (applyMapping m (dut.encode (payload ++ List.replicate TB 0))))
    payload

/-- `calibrate_mapping` (lines 105-123): try both mappings on a fresh 64-bit
pseudorandom payload at p = 0; pick `y0_is_v1` iff its error count is ≤. -/
def calibrate_mapping (dut : DutModel) (TB : Nat) (draws : Nat → ℚ) (ix : Nat) : Bool :=
  (one_pass_errors dut true (genBits draws ix 64) TB).1
    ≤ (one_pass_errors dut false (genBits draws ix 64) TB).1

/-- One sweep trial (lines 155-199): fresh payload, encode with tail, flip
channel, decode, compare the last `PLEN` decided bits. Consumes
`PLEN + 2 * (PLEN + TB)` draws starting at `ix`. -/
def run_trial (dut : DutModel) (m : Bool) (p : ℚ) (PLEN TB : Nat)
    (draws : Nat → ℚ) (ix : Nat) : Except String Nat :=
  let payload := genBits draws ix PLEN
  let coded := applyMapping m (dut.encode (payload ++ List.replicate TB 0))
  let noisy := apply_flips p draws (ix + PLEN) coded
  trial_outcome (dut.decode noisy) payload

/-- The trials loop of one sweep point, accumulating bit errors; the first
trial failure aborts the run. -/
def run_trials (dut : DutModel) (m : Bool) (p : ℚ) (PLEN TB : Nat)
    (draws : Nat → ℚ) : Nat → Nat → Except String Nat
  | _, 0 => Except.ok 0
  | ix, n + 1 =>
    match run_trial dut m p PLEN TB draws ix with
    | Except.error e => Except.error e
    | Except.ok errs =>
      match run_trials dut m p PLEN TB draws (ix + (PLEN + 2 * (PLEN + TB))) n with
      | Except.error e => Except.error e
      | Except.ok rest => Except.ok (errs + rest)

/-- One output row per sweep point (lines 203-214). -/
structure SweepRow where
  p_flip : ℚ
  errors : Nat
  total_bits : Nat
  trials : Nat
  payload_len : Nat
  tb_len : Nat
  ber : ℚ

/-- Row construction with `ber = errors/total if total else 0` (line 201). -/
def mkRow (p : ℚ) (errs total trials plen tb : Nat) : SweepRow :=
  ⟨p, errs, total, trials, plen, tb,
    if total = 0 then 0 else (errs : ℚ) / (total : ℚ)⟩

/-- The sweep loop over flip probabilities (lines 150-214). -/
def run_points (dut : DutModel) (m : Bool) (TRIALS PLEN TB : Nat)
    (draws : Nat → ℚ) : List ℚ → Nat → Except String (List SweepRow)
  | [], _ => Except.ok []
  | p :: ps, ix =>
    match run_trials dut m p PLEN TB draws ix TRIALS with
    | Except.error e => Except.error e
    | Except.ok errs =>
      match run_points dut m TRIALS PLEN TB draws ps
          (ix + TRIALS * (PLEN + 2 * (PLEN + TB))) with
      | Except.error e => Except.error e
      | Except.ok rows =>
        Except.ok (mkRow p errs (TRIALS * PLEN) TRIALS PLEN TB :: rows)

/-- The sweep configuration knobs (lines 133-139). -/
structure SweepConfig where
  P_FLIPS : List ℚ
  TRIALS : Nat
  PAYLOAD_LEN : Nat
  TB_LEN : Nat

/-- `test_ber_sweep` (lines 125-214): calibrate the mapping on the first 64
draws, then sweep every configured flip probability. -/
def test_ber_sweep (dut : DutModel) (cfg : SweepConfig) (draws : Nat → ℚ) :
    Except String (List SweepRow) :=
  run_points dut (calibrate_mapping dut cfg.TB_LEN draws 0) cfg.TRIALS
    cfg.PAYLOAD_LEN cfg.TB_LEN draws cfg.P_FLIPS 64

/-- Total number of generator draws one sweep consumes: 64 calibration draws,
then per point and trial `PAYLOAD_LEN` payload draws and two flip draws per
coded symbol. -/
def drawCount (cfg : SweepConfig) : Nat :=
  64 + cfg.P_FLIPS.length *
    (cfg.TRIALS * (cfg.PAYLOAD_LEN + 2 * (cfg.PAYLOAD_LEN + cfg.TB_LEN)))

/-! ## Determinism under a fixed seed (C4): the sweep output depends only on
the configuration, the device, and the prefix of the shared draw sequence it
consumes in fixed call order. -/

lemma genBits_length (draws : Nat → ℚ) (ix n : Nat) :
    (genBits draws ix n).length = n := by
  simp [genBits]

lemma genBits_congr (d1 d2 : Nat → ℚ) (ix n : Nat)
    (h : ∀ j, j < n → d1 (ix + j) = d2 (ix + j)) :
    genBits d1 ix n = genBits d2 ix n := by
  unfold genBits
  apply List.map_congr_left
  intro t ht
  rw [h t (List.mem_range.mp ht)]

lemma apply_flips_congr (p : ℚ) (d1 d2 : Nat → ℚ) :
    ∀ (coded : List (Nat × Nat)) (ix : Nat),
      (∀ j, j < 2 * coded.length → d1 (ix + j) = d2 (ix + j)) →
      apply_flips p d1 ix coded = apply_flips p d2 ix coded := by
  intro coded
  induction coded with
  | nil => intro ix _; rfl
  | cons s rest ih =>
    intro ix h
    simp only [apply_flips, List.cons.injEq]
    have h0 : d1 ix = d2 ix := by simpa using h 0 (by simp)
    have h1 : d1 (ix + 1) = d2 (ix + 1) := h 1 (by simp only [List.length_cons]; omega)
    refine ⟨by rw [h0, h1], ?_⟩
    apply ih
    intro j hj
    have e : ix + 2 + j = ix + (2 + j) := by omega
    rw [e]
    exact h (2 + j) (by simp only [List.length_cons]; omega)

lemma applyMapping_length (m : Bool) (pairs : List (Nat × Nat)) :
    (applyMapping m pairs).length = pairs.length := by
  unfold applyMapping
  split_ifs <;> simp

lemma run_trial_congr (dut : DutModel) (m : Bool) (p : ℚ) (PLEN TB : Nat)
    (d1 d2 : Nat → ℚ) (ix : Nat)
    (h : ∀ j, j < PLEN + 2 * (PLEN + TB) → d1 (ix + j) = d2 (ix + j)) :
    run_trial dut m p PLEN TB d1 ix = run_trial dut m p PLEN TB d2 ix := by
  simp only [run_trial]
  rw [genBits_congr d1 d2 ix PLEN (fun j hj => h j (by omega))]
  have hlen : (applyMapping m
      (dut.encode (genBits d2 ix PLEN ++ List.replicate TB 0))).length = PLEN + TB := by
    rw [applyMapping_length, dut.encode_length]
    simp [genBits_length]
  rw [apply_flips_congr p d1 d2 _ (ix + PLEN) ?_]
  intro j hj
  rw [hlen] at hj
  have e : ix + PLEN + j = ix + (PLEN + j) := by omega
  rw [e]
  exact h (PLEN + j) (by omega)

lemma run_trials_congr (dut : DutModel) (m : Bool) (p : ℚ) (PLEN TB : Nat)
    (d1 d2 : Nat → ℚ) (n : Nat) :
    ∀ (ix : Nat),
      (∀ j, j < n * (PLEN + 2 * (PLEN + TB)) → d1 (ix + j) = d2 (ix + j)) →
      run_trials dut m p PLEN TB d1 ix n = run_trials dut m p PLEN TB d2 ix n := by
  induction n with
  | zero => intro ix _; rfl
  | succ k ih =>
    intro ix h
    have hmul : (k + 1) * (PLEN + 2 * (PLEN + TB))
        = (PLEN + 2 * (PLEN + TB)) + k * (PLEN + 2 * (PLEN + TB)) := by ring
    simp only [run_trials]
    rw [run_trial_congr dut m p PLEN TB d1 d2 ix (fun j hj => h j (by omega))]
    rw [ih (ix + (PLEN + 2 * (PLEN + TB))) ?_]
    intro j hj
    have e : ix + (PLEN + 2 * (PLEN + TB)) + j
        = ix + ((PLEN + 2 * (PLEN + TB)) + j) := by omega
    rw [e]
    refine h ((PLEN + 2 * (PLEN + TB)) + j) ?_
    omega

lemma run_points_congr (dut : DutModel) (m : Bool) (TRIALS PLEN TB : Nat)
    (d1 d2 : Nat → ℚ) :
    ∀ (ps : List ℚ) (ix : Nat),
      (∀ j, j < ps.length * (TRIALS * (PLEN + 2 * (PLEN + TB))) →
        d1 (ix + j) = d2 (ix + j)) →
      run_points dut m TRIALS PLEN TB d1 ps ix
        = run_points dut m TRIALS PLEN TB d2 ps ix := by
  intro ps
  induction ps with
  | nil => intro ix _; rfl
  | cons p rest ih =>
    intro ix h
    have hmul : (rest.length + 1) * (TRIALS * (PLEN + 2 * (PLEN + TB)))
        = TRIALS * (PLEN + 2 * (PLEN + TB))
          + rest.length * (TRIALS * (PLEN + 2 * (PLEN + TB))) := by ring
    simp only [run_points]
    rw [run_trials_congr dut m p PLEN TB d1 d2 TRIALS ix ?_]
    · rw [ih (ix + TRIALS * (PLEN + 2 * (PLEN + TB))) ?_]
      intro j hj
      have e : ix + TRIALS * (PLEN + 2 * (PLEN + TB)) + j
          = ix + (TRIALS * (PLEN + 2 * (PLEN + TB)) + j) := by omega
      rw [e]
      refine h (TRIALS * (PLEN + 2 * (PLEN + TB)) + j) ?_
      simp only [List.length_cons]
      omega
    · intro j hj
      refine h j ?_
      simp only [List.length_cons]
      omega

lemma calibrate_congr (dut : DutModel) (TB : Nat) (d1 d2 : Nat → ℚ)
    (h : ∀ j, j < 64 → d1 j = d2 j) :
    calibrate_mapping dut TB d1 0 = calibrate_mapping dut TB d2 0 := by
  unfold calibrate_mapping
  rw [genBits_congr d1 d2 0 64 (fun j hj => by simpa using h j hj)]

/-- C4. Determinism under a fixed seed: for every configuration and every
deterministic device, two sweeps that read the same values from the shared
draw sequence on the (configuration-determined) prefix it consumes — i.e. two
runs seeded identically — produce identical sweep rows, errors, totals and
BERs included. -/
theorem C4_seed_determinism (dut : DutModel) (cfg : SweepConfig) (d1 d2 : Nat → ℚ)
    (h : ∀ j, j < drawCount cfg → d1 j = d2 j) :
    test_ber_sweep dut cfg d1 = test_ber_sweep dut cfg d2 := by
  unfold test_ber_sweep
  rw [calibrate_congr dut cfg.TB_LEN d1 d2
    (fun j hj => h j (by unfold drawCount; omega))]
  apply run_points_congr
  intro j hj
  refine h (64 + j) ?_
  unfold drawCount
  omega

/-- A concrete deterministic device: encoder duplicates each bit into a pair,
decoder returns no decisions. -/
def dutTriv : DutModel := ⟨fun l => l.map (fun b => (b, b)), fun _ => [], fun l => by simp⟩

/-- A one-point, one-trial sweep configuration. -/
def cfgTriv : SweepConfig := ⟨[0], 1, 2, 1⟩

def drawsA : Nat → ℚ := fun _ => 0

def drawsB : Nat → ℚ := fun j => if j < drawCount cfgTriv then 0 else 1

theorem C4_seed_determinism_witness :
    test_ber_sweep dutTriv cfgTriv drawsA = test_ber_sweep dutTriv cfgTriv drawsB :=
  C4_seed_determinism dutTriv cfgTriv drawsA drawsB
    (fun j hj => by simp [drawsA, drawsB, hj])

/-! ## Which decoded bits are compared (C5) -/

lemma tracebackRev_length : ∀ (l m : List (Row4 Int)) (s : Nat),
    (tracebackRev l m s).length = min l.length m.length
  | [], [], _ => by simp [tracebackRev]
  | [], _ :: _, _ => by simp [tracebackRev]
  | _ :: _, [], _ => by simp [tracebackRev]
  | _ :: pus, _ :: pvs, s => by
    simp only [tracebackRev, List.length_cons, tracebackRev_length pus pvs]
    omega

lemma conv_go_length : ∀ (x : List Nat) (st : Nat),
    (conv_go st x).length = 2 * x.length
  | [], _ => rfl
  | b :: rest, st => by
    simp only [conv_go, List.length_cons, conv_go_length rest]
    omega

lemma viterbi_length (rx : List Nat) :
    (viterbi_decode_hard_7_5 rx).length = rx.length / 2 := by
  simp only [viterbi_decode_hard_7_5]
  rw [List.length_reverse, tracebackRev_length]
  have h := vitTables_len pm0 (toPairs rx)
  simp [h.1, h.2, toPairs_length]

/-- The C5 claim is false on the code: `simulate_ber` compares
`dec[:len(payload)]` — the FIRST `len(payload)` decoded bits — which at the
one-bit payload `[1]` differs from the last `len(payload)` decoded bits. -/
theorem C5_counterexample :
    dec_payload [1] (viterbi_decode_hard_7_5 (conv_encode_7_5 (add_tail [1])))
      ≠ lastN (viterbi_decode_hard_7_5 (conv_encode_7_5 (add_tail [1])))
          ([1] : List Nat).length := by
  decide

/-- C5 (amended): both paths discard exactly the tail-derived decisions, but
from opposite ends — the software `simulate_ber` path compares the FIRST
`len(payload)` of the `len(payload) + 2` decoded bits (its decode is
payload-first, so the 2 discarded bits are the tail decisions at the end),
while the hardware-harness path compares the LAST `PAYLOAD_LEN` decided bits. -/
theorem C5_tail_discard (B : List Nat) (hB : IsBits B) :
    dec_payload B (viterbi_decode_hard_7_5 (conv_encode_7_5 (add_tail B)))
        = (viterbi_decode_hard_7_5 (conv_encode_7_5 (add_tail B))).take B.length ∧
    (viterbi_decode_hard_7_5 (conv_encode_7_5 (add_tail B))).length = B.length + 2 ∧
    viterbi_decode_hard_7_5 (conv_encode_7_5 (add_tail B))
        = dec_payload B (viterbi_decode_hard_7_5 (conv_encode_7_5 (add_tail B)))
          ++ lastN (viterbi_decode_hard_7_5 (conv_encode_7_5 (add_tail B))) 2 ∧
    ∀ (decided : List Int) (PLEN : Nat),
      hw_recovered decided PLEN = decided.drop (decided.length - PLEN) := by
  have hlen : (viterbi_decode_hard_7_5 (conv_encode_7_5 (add_tail B))).length
      = B.length + 2 := by
    rw [viterbi_length]
    simp only [conv_encode_7_5, conv_go_length, add_tail_eq]
    simp
  refine ⟨rfl, hlen, ?_, fun decided PLEN => rfl⟩
  simp only [dec_payload, lastN, hlen]
  rw [show B.length + 2 - 2 = B.length from by omega]
  exact (List.take_append_drop B.length _).symm

theorem C5_tail_discard_witness :
    (dec_payload [1, 1] (viterbi_decode_hard_7_5 (conv_encode_7_5 (add_tail [1, 1])))
        = (viterbi_decode_hard_7_5 (conv_encode_7_5 (add_tail [1, 1]))).take
            ([1, 1] : List Nat).length) ∧
    (viterbi_decode_hard_7_5 (conv_encode_7_5 (add_tail [1, 1]))).length
        = ([1, 1] : List Nat).length + 2 ∧
    viterbi_decode_hard_7_5 (conv_encode_7_5 (add_tail [1, 1]))
        = dec_payload [1, 1] (viterbi_decode_hard_7_5 (conv_encode_7_5 (add_tail [1, 1])))
          ++ lastN (viterbi_decode_hard_7_5 (conv_encode_7_5 (add_tail [1, 1]))) 2 ∧
    hw_recovered [0, 1, 0] 2 = ([0, 1, 0] : List Int).drop (([0, 1, 0] : List Int).length - 2) :=
  ⟨(C5_tail_discard [1, 1] (by decide)).1,
   (C5_tail_discard [1, 1] (by decide)).2.1,
   (C5_tail_discard [1, 1] (by decide)).2.2.1,
   (C5_tail_discard [1, 1] (by decide)).2.2.2 [0, 1, 0] 2⟩

/-! ## Shortfall of decided bits (C6) -/

lemma lastN_short {α : Type} (l : List α) (n : Nat) (h : l.length < n) :
    lastN l n = l := by
  unfold lastN
  rw [Nat.sub_eq_zero_of_le (by omega), List.drop_zero]

/-- The C6 claim is false on the code: in the calibration pass
(`_one_pass_errors`), a shortfall of decided bits (here 0 decided < 1 needed)
is returned as the bit-error count `len(payload) = 1` — "treat as all wrong
if short" — with no exception raised. -/
theorem C6_counterexample :
    cal_outcome [] [0] = (1, 0) ∧ ([] : List Int).length < ([0] : List Nat).length := by
  constructor
  · decide
  · decide

/-- C6 (amended): a shortfall of decided bits raises the distinct hard error
in the sweep-trial path, but the calibration pass instead converts it into
the error-count pair `(len(payload), len(recovered))`. -/
theorem C6_shortfall_behaviour (decided : List Int) (payload : List Nat)
    (h : decided.length < payload.length) :
    trial_outcome decided payload = Except.error "Not enough decided bits" ∧
    cal_outcome decided payload = (payload.length, decided.length) := by
  simp only [trial_outcome, cal_outcome, hw_recovered]
  rw [lastN_short decided payload.length h]
  have hc : decided.length ≠ payload.length := by omega
  rw [if_pos hc, if_pos hc]
  exact ⟨rfl, rfl⟩

theorem C6_shortfall_behaviour_witness :
    trial_outcome [] [0, 1] = Except.error "Not enough decided bits" ∧
    cal_outcome [] [0, 1] = (([0, 1] : List Nat).length, ([] : List Int).length) :=
  C6_shortfall_behaviour [] [0, 1] (by decide)
